import Mathlib

/-!
Verification of the deduplication/clustering core of `aiida-sdb`.

This file gives a shallow embedding, in Lean 4, of the parts of the
repository that the specification's claims are about:

* `run/uniq.py` — the clustering methods `first_come_first_serve` and
  `seb_knows_best`;
* `run/__init__.py` — the `uniq` driver (bucketing, ordering, duplicate
  bookkeeping, reconciliation against the target group) and the `select`
  command;
* `run/select.py` — `find_better_duplicates` and `replace_structure`;
* `launch/cif_unique.py` — the `cif_unique` command's similarity adapter,
  prototype-reference selection, and duplicates-extra persistence.

Python structures (`StructureData` nodes) are modelled by the record type
`StructureRecord`; the pymatgen `StructureMatcher` oracle is modelled by an
opaque boolean function `fit`; AiiDA extras are modelled by association
lists; Python `set` values are modelled by `Finset String`.  Python code
that can raise is modelled with `Option`/`Except`.
-/

namespace AiidaSdb

/-- A structure record as the core sees it: a stable identifier (`uuid`), a
number of sites (`len(structure.sites)`), the `source` triple stored in the
`source` extra (`database`, `version`, `id`), the computed bucket key
(`get_formula(mode='hill_compact')`, with the space-group symbol appended
when `sort_by_spg` is enabled; modelled as the precomputed field `formula`),
whether computing that key raises (the `try/except` in the mapping loop,
modelled by `sortFails`), and whether the record carries the
`incorrect_formula` extra that the structure queries filter on. -/
structure StructureRecord where
  uuid : String
  nsites : Nat
  db : String
  version : String
  extId : String
  formula : String
  sortFails : Bool
  incorrectFormula : Bool
deriving DecidableEq, Repr, Inhabited

/-- The duplicate key of a record in the `source` style: the string
`database|version|id` built from the record's `source` extra.  This is the
string built explicitly in `replace_structure` (`select.py`) and produced by
`get_duplicate_id(node, style='source')` in `run/__init__.py` (the store
returns the `source` mapping with its values in `id`, `version`, `database`
order, which `get_duplicate_id` reverses before joining with `|`). -/
def duplicateKey (r : StructureRecord) : String :=
  r.db ++ "|" ++ r.version ++ "|" ++ r.extId

/-- The two duplicate-identity styles supported by `get_duplicate_id` in
`run/__init__.py`: the portable `source` style and the internal `uuid`
style. -/
inductive DupStyle where
  | source
  | uuid
deriving DecidableEq, Repr

/-- `get_duplicate_id` from `run/__init__.py`. -/
def get_duplicate_id (r : StructureRecord) : DupStyle → String
  | DupStyle.source => duplicateKey r
  | DupStyle.uuid => r.uuid

/-! ### String ordering

Python compares strings lexicographically by code point.  Lean's built-in
`String` order does not reduce in the kernel, so the order is modelled
structurally over the character list. -/

/-- Lexicographic code-point comparison of character lists, as Python
compares strings. -/
def lexLe : List Char → List Char → Bool
  | [], _ => true
  | _ :: _, [] => false
  | a :: as, b :: bs =>
    if a.toNat < b.toNat then true
    else if b.toNat < a.toNat then false
    else lexLe as bs

/-- Python string `<=`, modelled over the code-point lists. -/
def strLe (a b : String) : Bool := lexLe a.data b.data

theorem lexLe_total (a b : List Char) : lexLe a b = true ∨ lexLe b a = true := by
  induction a generalizing b with
  | nil => left; rfl
  | cons x xs ih =>
    cases b with
    | nil => right; rfl
    | cons y ys =>
      by_cases hxy : x.toNat < y.toNat
      · left; simp [lexLe, hxy]
      · by_cases hyx : y.toNat < x.toNat
        · right; simp [lexLe, hyx]
        · rcases ih ys with h | h
          · left; simp [lexLe, hxy, hyx, h]
          · right; simp [lexLe, hxy, hyx, h]

theorem lexLe_trans {a b c : List Char} (hab : lexLe a b = true)
    (hbc : lexLe b c = true) : lexLe a c = true := by
  induction a generalizing b c with
  | nil => rfl
  | cons x xs ih =>
    cases b with
    | nil => simp [lexLe] at hab
    | cons y ys =>
      cases c with
      | nil => simp [lexLe] at hbc
      | cons z zs =>
        by_cases hxy : x.toNat < y.toNat
        · by_cases hyz : y.toNat < z.toNat
          · have : x.toNat < z.toNat := Nat.lt_trans hxy hyz
            simp [lexLe, this]
          · by_cases hzy : z.toNat < y.toNat
            · simp [lexLe, hyz, hzy] at hbc
            · have hyz' : y.toNat = z.toNat := Nat.le_antisymm (Nat.le_of_not_lt hzy) (Nat.le_of_not_lt hyz)
              have : x.toNat < z.toNat := hyz' ▸ hxy
              simp [lexLe, this]
        · by_cases hyx : y.toNat < x.toNat
          · simp [lexLe, hxy, hyx] at hab
          · have hxy' : x.toNat = y.toNat := Nat.le_antisymm (Nat.le_of_not_lt hyx) (Nat.le_of_not_lt hxy)
            simp only [lexLe, hxy, hyx, if_false] at hab
            by_cases hyz : y.toNat < z.toNat
            · have : x.toNat < z.toNat := hxy' ▸ hyz
              simp [lexLe, this]
            · by_cases hzy : z.toNat < y.toNat
              · simp [lexLe, hyz, hzy] at hbc
              · simp only [lexLe, hyz, hzy, if_false] at hbc
                have hxz : ¬ x.toNat < z.toNat := by
                  rw [hxy']; exact hyz
                have hzx : ¬ z.toNat < x.toNat := by
                  rw [hxy']; exact hzy
                simp [lexLe, hxz, hzx, ih hab hbc]

theorem lexLe_antisymm {a b : List Char} (hab : lexLe a b = true)
    (hba : lexLe b a = true) : a = b := by
  induction a generalizing b with
  | nil =>
    cases b with
    | nil => rfl
    | cons y ys => simp [lexLe] at hba
  | cons x xs ih =>
    cases b with
    | nil => simp [lexLe] at hab
    | cons y ys =>
      by_cases hxy : x.toNat < y.toNat
      · simp [lexLe, hxy, Nat.lt_asymm hxy] at hba
      · by_cases hyx : y.toNat < x.toNat
        · simp [lexLe, hxy, hyx] at hab
        · have hxy' : x.toNat = y.toNat := Nat.le_antisymm (Nat.le_of_not_lt hyx) (Nat.le_of_not_lt hxy)
          have hx : x = y := by
            have := congrArg Char.ofNat hxy'
            rwa [Char.ofNat_toNat, Char.ofNat_toNat] at this
          simp only [lexLe, hxy, hyx, if_false] at hab hba
          rw [hx, ih hab hba]

theorem strLe_total (a b : String) : strLe a b = true ∨ strLe b a = true :=
  lexLe_total a.data b.data

theorem strLe_trans {a b c : String} (hab : strLe a b = true)
    (hbc : strLe b c = true) : strLe a c = true :=
  lexLe_trans hab hbc

theorem strLe_antisymm {a b : String} (hab : strLe a b = true)
    (hba : strLe b a = true) : a = b :=
  String.ext (lexLe_antisymm hab hba)

/-! ### Ordering of records inside a bucket

`run/__init__.py` sorts every bucket's entries by
`(len(structure.sites), structure.uuid)` and `launch/cif_unique.py` does the
same; this is the deterministic order of §4.3. -/

/-- The bucket sort key order: number of sites ascending, then uuid
ascending. -/
def recLe (a b : StructureRecord) : Prop :=
  a.nsites < b.nsites ∨ (a.nsites = b.nsites ∧ strLe a.uuid b.uuid = true)

instance : DecidableRel recLe := fun a b => by
  unfold recLe; infer_instance

instance : IsTotal StructureRecord recLe := by
  constructor
  intro a b
  rcases Nat.lt_trichotomy a.nsites b.nsites with h | h | h
  · exact Or.inl (Or.inl h)
  · rcases strLe_total a.uuid b.uuid with hs | hs
    · exact Or.inl (Or.inr ⟨h, hs⟩)
    · exact Or.inr (Or.inr ⟨h.symm, hs⟩)
  · exact Or.inr (Or.inl h)

instance : IsTrans StructureRecord recLe := by
  constructor
  intro a b c hab hbc
  rcases hab with h1 | ⟨h1, s1⟩
  · rcases hbc with h2 | ⟨h2, _⟩
    · exact Or.inl (Nat.lt_trans h1 h2)
    · exact Or.inl (h2 ▸ h1)
  · rcases hbc with h2 | ⟨h2, s2⟩
    · exact Or.inl (h1 ▸ h2)
    · exact Or.inr ⟨h1.trans h2, strLe_trans s1 s2⟩

/-- Antisymmetry of the bucket order holds up to the uuid: two records that
compare equal have the same number of sites and the same uuid. -/
theorem recLe_antisymm_uuid {a b : StructureRecord} (hab : recLe a b)
    (hba : recLe b a) : a.uuid = b.uuid := by
  rcases hab with h1 | ⟨h1, s1⟩
  · rcases hba with h2 | ⟨h2, _⟩
    · exact absurd h2 (Nat.lt_asymm h1)
    · exact absurd h2.symm (Nat.ne_of_lt h1)
  · rcases hba with h2 | ⟨h2, s2⟩
    · exact absurd h1 (Nat.ne_of_lt h2).symm
    · exact strLe_antisymm s1 s2

/-- Python's `sorted` on a bucket: sort by `(nsites, uuid)`. -/
def sortBucket (l : List StructureRecord) : List StructureRecord :=
  l.insertionSort recLe

/-! ### `first_come_first_serve` (`run/uniq.py`, lines 19-50)

The greedy clustering method: walk the bucket in order; each structure is
compared against the already-found uniques (in insertion order) and joins
the first one the matcher deems equal, otherwise it starts a new unique
entry keyed by its own uuid. -/

/-- One entry of `uniq_dict`: the unique (canonical) structure together with
the list of members found equal to it.  The Python value is
`(structure, [uuid, ...])`; the member records themselves are kept here
(the code keeps uuids and reloads the node with `load_node` when it needs
the record back). -/
structure UniqEntry where
  canon : StructureRecord
  members : List StructureRecord
deriving DecidableEq, Repr

/-- Scan the unique entries in insertion order looking for the first one
whose canonical structure the matcher deems equal to `r`
(`matcher.fit(structure, uniq_data[0])`); on a hit, append `r` to that
entry's member list and stop. -/
def fcfsScan (fit : StructureRecord → StructureRecord → Bool)
    (r : StructureRecord) : List UniqEntry → Option (List UniqEntry)
  | [] => none
  | e :: es =>
    if fit r e.canon then some ({ e with members := e.members ++ [r] } :: es)
    else (fcfsScan fit r es).map (e :: ·)

/-- `uniq_dict[uuid] = (structure, [uuid])`: dictionary assignment keyed by
uuid — replaces in place if the key exists, otherwise appends. -/
def fcfsNew (r : StructureRecord) : List UniqEntry → List UniqEntry
  | [] => [⟨r, [r]⟩]
  | e :: es =>
    if e.canon.uuid = r.uuid then ⟨r, [r]⟩ :: es
    else e :: fcfsNew r es

/-- Process one structure of the bucket. -/
def fcfsVisit (fit : StructureRecord → StructureRecord → Bool)
    (acc : List UniqEntry) (r : StructureRecord) : List UniqEntry :=
  match fcfsScan fit r acc with
  | some acc' => acc'
  | none => fcfsNew r acc

/-- `first_come_first_serve` on a single (already ordered) bucket. -/
def first_come_first_serve (fit : StructureRecord → StructureRecord → Bool)
    (l : List StructureRecord) : List UniqEntry :=
  l.foldl (fcfsVisit fit) []

/-! ### `seb_knows_best` (`run/uniq.py`, lines 53-84)

The connected-components clustering method: build the symmetric adjacency
matrix `adjacent_matrix[i, j] = matcher.fit(structures[i], structures[j])`
for `i < j` (symmetrised, with the identity diagonal) and compute the
connected components of the resulting undirected graph with
`scipy.sparse.csgraph.connected_components`.  The external scipy routine is
modelled by its contract — the partition of the bucket into connected
components — computed incrementally: records are added in index order and a
new record merges every existing component containing a structure the
matcher links it to (`matcher.fit(structures[i], structures[j])` with
`i < j`, i.e. existing-versus-new). -/

/-- Whether an existing component contains a structure adjacent to the new
record `r` (edge `fit x r` with `x` earlier in the bucket than `r`). -/
def linked_to (fit : StructureRecord → StructureRecord → Bool)
    (r : StructureRecord) (c : List StructureRecord) : Bool :=
  c.any fun x => fit x r

/-- Add one record to the running component list: all components linked to
it collapse into the earliest of them (components stay ordered by creation,
so each component's head is its first — lowest-index — member, matching
`prototype[0]` in the source), otherwise a new singleton component is
appended. -/
def cc_insert (fit : StructureRecord → StructureRecord → Bool)
    (r : StructureRecord) : List (List StructureRecord) → List (List StructureRecord)
  | [] => [[r]]
  | c :: cs =>
    if linked_to fit r c then
      (c ++ (cs.filter (linked_to fit r)).flatten ++ [r])
        :: cs.filter (fun d => !(linked_to fit r d))
    else c :: cc_insert fit r cs

/-- The partition of a bucket into connected components of the similarity
graph — the equivalence classes (`prototype_indices`) that
`seb_knows_best` derives from `connected_components`. -/
def seb_knows_best_classes (fit : StructureRecord → StructureRecord → Bool)
    (l : List StructureRecord) : List (List StructureRecord) :=
  l.foldl (fun acc r => cc_insert fit r acc) []

/-! ### `launch/cif_unique.py` — similarity adapter, prototype selection,
duplicates persistence -/

/-- The outcome of one raw `matcher.fit` call: a boolean verdict, a
`TypeError` (e.g. an ill-defined lattice), or some other exception. -/
inductive MatcherOutcome where
  | ok (b : Bool)
  | typeError
  | otherError
deriving DecidableEq, Repr

/-- `structure_similarity` (`cif_unique.py`, lines 120-139): delegates to
`matcher.fit` and converts the boolean to `1`/`0`; a `TypeError` is caught
and converted to `0` together with an `echo_info` message identifying the
two uuids (modelled as the second component); any other exception
propagates out (modelled as `Except.error`). -/
def structure_similarity (outcome : MatcherOutcome) (uuid_i uuid_j : String) :
    Except String (Nat × Option (String × String)) :=
  match outcome with
  | MatcherOutcome.ok b => Except.ok (if b then 1 else 0, none)
  | MatcherOutcome.typeError => Except.ok (0, some (uuid_i, uuid_j))
  | MatcherOutcome.otherError => Except.error "unhandled comparator exception"

/-- The prototype-reference selection of `cif_unique` (lines 172-178): the
first prototype structure whose uuid is already in the reference group
stays the reference; if none is known yet, the first structure of the
prototype (`structures[prototype[0]]`, the least index in the bucket order)
becomes the reference. -/
def select_prototype_reference (prototype_structures : List StructureRecord)
    (reference_uuids : List String) : StructureRecord :=
  match prototype_structures.find? (fun s => decide (s.uuid ∈ reference_uuids)) with
  | some s => s
  | none => prototype_structures.headI

/-- `extra.setdefault(database, []).append(uuid)`: append a value to the
list held under a key of an insertion-ordered dictionary. -/
def extra_setdefault_append (acc : List (String × List String)) (k v : String) :
    List (String × List String) :=
  match acc with
  | [] => [(k, [v])]
  | (k', vs) :: rest =>
    if k' = k then (k, vs ++ [v]) :: rest
    else (k', vs) :: extra_setdefault_append rest k v

/-- The `duplicates` extra that `cif_unique` persists for every member of a
prototype (lines 191-197): a dictionary mapping each source database to the
list of uuids of the prototype's members from that database. -/
def cif_unique_duplicates_extra (duplicates : List StructureRecord) :
    List (String × List String) :=
  duplicates.foldl (fun acc s => extra_setdefault_append acc s.db s.uuid) []

/-- All identifier strings stored in a `cif_unique` duplicates extra. -/
def extra_values (e : List (String × List String)) : List String :=
  (e.map Prod.snd).flatten

/-! ### `first_come_first_serve` with a raw, fallible matcher

`run/uniq.py` calls `matcher.fit` with no `try/except` at all, so a
comparator exception propagates out of the clustering loop.  This is the
same fold as `first_come_first_serve` above, with the matcher modelled as
fallible. -/

/-- `fcfsScan` against a matcher that may raise. -/
def fcfsScanE (fitE : StructureRecord → StructureRecord → Except String Bool)
    (r : StructureRecord) : List UniqEntry → Except String (Option (List UniqEntry))
  | [] => Except.ok none
  | e :: es =>
    match fitE r e.canon with
    | Except.error m => Except.error m
    | Except.ok true => Except.ok (some ({ e with members := e.members ++ [r] } :: es))
    | Except.ok false => (fcfsScanE fitE r es).map (Option.map (e :: ·))

/-- `fcfsVisit` against a matcher that may raise. -/
def fcfsVisitE (fitE : StructureRecord → StructureRecord → Except String Bool)
    (acc : List UniqEntry) (r : StructureRecord) : Except String (List UniqEntry) :=
  match fcfsScanE fitE r acc with
  | Except.error m => Except.error m
  | Except.ok (some acc') => Except.ok acc'
  | Except.ok none => Except.ok (fcfsNew r acc)

/-- `first_come_first_serve` on one bucket against a matcher that may
raise: nothing in `run/uniq.py` catches the exception, so it aborts the
fold. -/
def first_come_first_serveE
    (fitE : StructureRecord → StructureRecord → Except String Bool)
    (l : List StructureRecord) : Except String (List UniqEntry) :=
  l.foldlM (fcfsVisitE fitE)  []

/-! ### `run/select.py` — quality flags, better duplicates, canonical
replacement -/

/-- One row of a per-database flag table (`hith.data.flags` CSV). -/
structure FlagRow where
  is_theoretical : Bool
  is_high_pressure : Bool
  is_high_temperature : Bool
deriving DecidableEq, Repr

/-- Split a string on `|`, as Python `s.split('|')`. -/
def splitBarAux : List Char → List Char → List (List Char)
  | [], cur => [cur.reverse]
  | c :: cs, cur =>
    if c = '|' then cur.reverse :: splitBarAux cs []
    else splitBarAux cs (c :: cur)

/-- Python `s.split('|')`. -/
def splitOnBar (s : String) : List String :=
  (splitBarAux s.data []).map (fun l => String.mk l)

/-- `get_ok_duplicates` (`select.py`, lines 12-25): walk the structure's
`duplicates` list, unpack every entry as `database|version|id` (a
`ValueError` propagates if an entry does not have exactly three parts),
look the pair up in the flag tables (a `KeyError` is swallowed), and
collect `database|id` — a two-part string — for every duplicate whose
disqualifying flags are all false.  This is the body of the loop. -/
def get_ok_duplicates_step (flag_dict : String → String → Option FlagRow)
    (acc : List String) (dup : String) : Except String (List String) :=
  match splitOnBar dup with
  | [ddb, _, did] =>
    match flag_dict ddb did with
    | some row =>
      if row.is_theoretical || row.is_high_pressure || row.is_high_temperature then
        Except.ok acc
      else Except.ok (acc ++ [ddb ++ "|" ++ did])
    | none => Except.ok acc
  | _ => Except.error "ValueError: not enough values to unpack"

/-- The whole loop of `get_ok_duplicates`. -/
def get_ok_duplicates (flag_dict : String → String → Option FlagRow)
    (duplicates : List String) : Except String (List String) :=
  duplicates.foldlM (get_ok_duplicates_step flag_dict) []

/-- Python `s.startswith(p)`. -/
def str_starts_with (p s : String) : Bool := p.data.isPrefixOf s.data

/-- The replacement choice of `replace_structure` (lines 52-57): scan the
databases in the priority order `cod`, `icsd`, `mpds` and keep the first
better duplicate whose entry starts with that database name. -/
def choose_replacement (better_duplicates : List String) : Option String :=
  ["cod", "icsd", "mpds"].foldl
    (fun acc database =>
      better_duplicates.foldl
        (fun acc' dup =>
          if str_starts_with database dup && acc'.isNone then some dup else acc')
        acc)
    none

/-- Association-list lookup for a per-uuid `duplicates` extra (`none` means
the node has no `duplicates` extra). -/
def lookupDup (d : List (String × Finset String)) (u : String) : Option (Finset String) :=
  (d.find? (fun p => p.1 = u)).map Prod.snd

/-- `extras.set('duplicates', v)`: replace in place, or add. -/
def setDup (d : List (String × Finset String)) (u : String) (v : Finset String) :
    List (String × Finset String) :=
  match d with
  | [] => [(u, v)]
  | (u', v') :: rest =>
    if u' = u then (u, v) :: rest else (u', v') :: setDup rest u v

/-- `extras.delete('duplicates')`: drop the first binding. -/
def delDup (d : List (String × Finset String)) (u : String) :
    List (String × Finset String) :=
  match d with
  | [] => []
  | (u', v') :: rest =>
    if u' = u then rest else (u', v') :: delDup rest u

/-- The shared state `replace_structure` mutates: per-uuid `duplicates`
extras and the membership of the unique group. -/
structure LedgerState where
  dup : List (String × Finset String)
  group : List String
deriving DecidableEq

/-- `replace_structure` (`select.py`, lines 47-95), from the point where
the structure and its chosen replacement are in hand: build the two
source keys, read the old canonical's duplicate set, assert that the old
canonical's own key is absent from it and that the replacement's key is
present in it — an `AssertionError` propagates and nothing is mutated —
then remove the replacement's key, add the old canonical's key, store the
set on the replacement, delete the old canonical's `duplicates` extra, and
swap the two records in the unique group. -/
def replace_structure (st : LedgerState) (structure_rec replacement : StructureRecord) :
    Except String LedgerState :=
  let structure_source := duplicateKey structure_rec
  let replacement_source := duplicateKey replacement
  match lookupDup st.dup structure_rec.uuid with
  | none => Except.error "KeyError: duplicates"
  | some duplicates_set =>
    if structure_source ∈ duplicates_set then
      Except.error "AssertionError: found the original source in the duplicates"
    else if replacement_source ∉ duplicates_set then
      Except.error "AssertionError: did not find the replacement source in the duplicates"
    else
      let new_set := insert structure_source (duplicates_set.erase replacement_source)
      Except.ok
        { dup := delDup (setDup st.dup replacement.uuid new_set) structure_rec.uuid
          group := (st.group.filter (fun u => u ≠ structure_rec.uuid)) ++ [replacement.uuid] }

/-! ### Exit behaviour of the `run uniq` and `run select` commands -/

/-- The observable exit status of the CLI process. -/
inductive ExitStatus where
  | ok
  | failure
deriving DecidableEq, Repr

/-- Group resolution in `run uniq` (`run/__init__.py`, lines 82-100): a
missing source group, or a missing target group without
`--create-target-group`, prints a `[bold red]Error:[/]` message and then
simply `return`s, so the typer command completes normally.  The result is
the process exit status paired with whether an error message was
printed. -/
def uniq_command_exit (source_exists target_exists create_target_group : Bool) :
    ExitStatus × Bool :=
  if !source_exists then (ExitStatus.ok, true)
  else if !target_exists && !create_target_group then (ExitStatus.ok, true)
  else (ExitStatus.ok, false)

/-- Exit behaviour of `run select` (`run/__init__.py`, lines 300-312 and
`select.py`, lines 82-86): `orm.load_group('global/uniq')` and
`orm.load_group(unique_group)` raise `NotExistent` uncaught, and the
`assert` statements of `replace_structure` raise `AssertionError` uncaught,
all of which terminate the process with a failure status. -/
def select_command_exit (global_uniq_exists unique_group_exists assertions_pass : Bool) :
    ExitStatus :=
  if !global_uniq_exists then ExitStatus.failure
  else if !unique_group_exists then ExitStatus.failure
  else if !assertions_pass then ExitStatus.failure
  else ExitStatus.ok

/-- The scan/apply split of the `select` command (`run/__init__.py`, lines
300-312): the structures scanned for disqualifying flags are the members of
the literal group `global/uniq` (line 300), while the replacements are
applied to the group named by the `unique_group` argument (lines 309-312). -/
structure SelectRun where
  scanned : List StructureRecord
  applied_group : String
deriving Repr

/-- The `select` command, at the level of which groups it touches: it scans
`orm.load_group('global/uniq').nodes` and applies the replacements to
`orm.load_group(unique_group)`. -/
def select_command (store : String → List StructureRecord) (unique_group : String) :
    SelectRun :=
  { scanned := store "global/uniq", applied_group := unique_group }

/-! ### The `run uniq` driver (`run/__init__.py`, lines 30-268)

The driver with its default options (`method='first'`, `sort_by_spg=True`,
no element filters, no size limit, not `--dry-run`, duplicate style
`source`).  The record's `formula` field stands for the computed sort key
(chemical formula plus space-group symbol) and `sortFails` for the
`try/except` around its computation. -/

/-- `struc_filters`: both structure queries exclude records carrying the
`incorrect_formula` extra. -/
def queryFilter (r : StructureRecord) : Bool := !r.incorrectFormula

/-- The source-group records that survive the query filter and whose sort
key computes without raising. -/
def sourceEntries (S : List StructureRecord) : List StructureRecord :=
  (S.filter queryFilter).filter (fun r => !r.sortFails)

/-- The sort keys present in `mapping` — only source records ever add a
key, since a target record whose key is absent is skipped. -/
def sourceKeys (S : List StructureRecord) : List String :=
  (sourceEntries S).map (fun r => r.formula)

/-- The target-group records that enter the mapping: query filter, sort key
computable, and sort key already present among the source keys
(lines 170-172). -/
def targetEntries (S T : List StructureRecord) : List StructureRecord :=
  ((T.filter queryFilter).filter (fun r => !r.sortFails)).filter
    (fun t => decide (t.formula ∈ sourceKeys S))

/-- `strLe` as a relation, for sorting the bucket keys. -/
def strLeP (a b : String) : Prop := strLe a b = true

instance : DecidableRel strLeP := fun a b => by
  unfold strLeP; infer_instance

instance : IsTotal String strLeP := ⟨fun a b => strLe_total a b⟩

instance : IsTrans String strLeP := ⟨fun _ _ _ => strLe_trans⟩

/-- The buckets in processing order: `sorted(mapping.items(), key=x[0])`. -/
def sortedKeys (S : List StructureRecord) : List String :=
  (sourceKeys S).dedup.insertionSort strLeP

/-- One bucket: the source entries with that key (in query order) followed
by the target entries with that key, sorted by `(nsites, uuid)`. -/
def bucketRecords (S T : List StructureRecord) (k : String) : List StructureRecord :=
  sortBucket ((sourceEntries S).filter (fun r => r.formula = k)
    ++ (targetEntries S T).filter (fun r => r.formula = k))

/-- The shared state the driver reads and mutates: the target group's
membership and the per-uuid `duplicates` extras of the store. -/
structure DriverState where
  target : List StructureRecord
  dup : List (String × Finset String)
deriving DecidableEq

/-- `get_duplicate_set(uuid)` (lines 214-217): the node's own source-style
duplicate id plus its stored `duplicates` list (defaulting to empty). -/
def get_duplicate_set (dup : List (String × Finset String)) (m : StructureRecord) :
    Finset String :=
  insert (duplicateKey m) ((lookupDup dup m.uuid).getD ∅)

/-- The global `uniq` dictionary: `first_come_first_serve` run bucket by
bucket in sorted key order, the per-bucket dictionaries concatenated. -/
def uniq_entries (fit : StructureRecord → StructureRecord → Bool)
    (S T : List StructureRecord) : List UniqEntry :=
  ((sortedKeys S).map (fun k => first_come_first_serve fit (bucketRecords S T k))).flatten

/-- `structure.uuid in data[1]`: whether the target structure is a member
of the entry's class. -/
def entryHas (t : StructureRecord) (e : UniqEntry) : Bool :=
  e.members.any (fun m => m.uuid = t.uuid)

/-- The duplicate set computed for a matched target structure
(lines 233-235): its own stored `duplicates` (a `KeyError` — `none` — if
the extra is absent) unioned with `get_duplicate_set` of every member of
the class. -/
def target_duplicates_for_entry (st : DriverState) (t : StructureRecord)
    (e : UniqEntry) : Option (Finset String) :=
  (lookupDup st.dup t.uuid).map
    (fun d => e.members.foldl (fun acc m => acc ∪ get_duplicate_set st.dup m) d)

/-- All `(structure, target_duplicates)` pairs appended for one target
structure (the inner loop over `uniq.items()`). -/
def updatesForTarget (st : DriverState) (entries : List UniqEntry)
    (t : StructureRecord) : Option (List (StructureRecord × Finset String)) :=
  (entries.filter (entryHas t)).mapM
    (fun e => (target_duplicates_for_entry st t e).map (fun d => (t, d)))

/-- The whole `target_duplicates_list` (lines 222-236), computed against
the pre-run state before anything is written. -/
def allTargetUpdates (st : DriverState) (entries : List UniqEntry) :
    Option (List (StructureRecord × Finset String)) :=
  (st.target.mapM (updatesForTarget st entries)).map List.flatten

/-- `new_uuid_uniq` after the target loop: the entries from which no target
structure was found among the members (every match pops the entry). -/
def remainingNew (st : DriverState) (entries : List UniqEntry) : List UniqEntry :=
  entries.filter (fun e => !(st.target.any (fun t => entryHas t e)))

/-- Applying the target updates (lines 238-241): for each pair, remove the
structure's own duplicate id from the set (`set.remove` raises — `none` —
if it is absent) and write the set back. -/
def applyTargetUpdates (st : DriverState) :
    List (StructureRecord × Finset String) → Option DriverState
  | [] => some st
  | (t, d) :: rest =>
    if duplicateKey t ∈ d then
      applyTargetUpdates { st with dup := setDup st.dup t.uuid (d.erase (duplicateKey t)) } rest
    else none

/-- The ledger's duplicate-set update (`target_duplicates.update(...)`
followed by `target_duplicates.remove(get_duplicate_id(structure))`): union
the member keys in, then remove the canonical's own key. -/
def ledger_union (d member_keys : Finset String) (own : String) : Finset String :=
  (d ∪ member_keys).erase own

/-- Applying the new unique entries (lines 250-264): for each remaining
entry, union its canonical's stored duplicates with the duplicate ids of
all class members, remove the canonical's own id (`set.remove` raises if it
is absent), write the set on the canonical, and collect the canonical in
`new_nodes`. -/
def applyNewEntries (st : DriverState) (acc : List StructureRecord) :
    List UniqEntry → Option (DriverState × List StructureRecord)
  | [] => some (st, acc)
  | e :: rest =>
    let td := (lookupDup st.dup e.canon.uuid).getD ∅
    let ks := (e.members.map duplicateKey).toFinset
    if duplicateKey e.canon ∈ td ∪ ks then
      applyNewEntries
        { st with dup := setDup st.dup e.canon.uuid (ledger_union td ks (duplicateKey e.canon)) }
        (acc ++ [e.canon]) rest
    else none

/-- The outcome of one `run uniq` invocation: the final shared state, the
applied target-duplicate updates, and the new canonicals added to the
target group. -/
structure RunResult where
  state : DriverState
  updates : List (StructureRecord × Finset String)
  added : List StructureRecord
deriving DecidableEq

/-- The `run uniq` driver: early return when the source group is empty or
the filtered source query matches nothing; otherwise cluster, compute the
target-duplicate write-set, apply it, and add the remaining new canonicals
(with their duplicate extras) to the target group.  `none` models an
uncaught exception. -/
def run_uniq (fit : StructureRecord → StructureRecord → Bool)
    (S : List StructureRecord) (st : DriverState) : Option RunResult :=
  if S.isEmpty || (S.filter queryFilter).isEmpty then some ⟨st, [], []⟩
  else
    let entries := uniq_entries fit S st.target
    match allTargetUpdates st entries with
    | none => none
    | some upds =>
      match applyTargetUpdates st upds with
      | none => none
      | some st1 =>
        let newE := remainingNew st entries
        if newE.isEmpty then some ⟨st1, upds, []⟩
        else
          match applyNewEntries st1 [] newE with
          | none => none
          | some (st2, newNodes) =>
            some ⟨{ st2 with target := st2.target ++ newNodes }, upds, newNodes⟩

/-! ### Mutation phases and transaction scopes of the two drivers

The concrete mutations the drivers perform, in program order, with the
scoped-transaction boundaries they sit between
(`run/__init__.py`, lines 219-267; `cif_unique.py`, lines 185-207). -/

/-- The steps of a driver run that matter for atomicity. -/
inductive DriverStep where
  | computeWriteSet
  | txnBegin
  | txnEnd
  | mutateTargetDuplicates
  | mutateNewCanonExtras
  | mutateSetDuplicatesExtra
  | mutateAddNodesToGroup
deriving DecidableEq, Repr

/-- Which steps mutate the external store. -/
def DriverStep.isMutation : DriverStep → Bool
  | DriverStep.mutateTargetDuplicates => true
  | DriverStep.mutateNewCanonExtras => true
  | DriverStep.mutateSetDuplicatesExtra => true
  | DriverStep.mutateAddNodesToGroup => true
  | _ => false

/-- The step sequence of `run uniq` (not `--dry-run`): the target-duplicate
write-set is computed (lines 219-236), the target `duplicates` extras are
written (lines 238-241), then a scoped transaction wraps only the loop that
writes the new canonicals' extras (lines 250-264), and the new nodes are
added to the target group after the transaction has closed (line 267). -/
def run_uniq_steps : List DriverStep :=
  [DriverStep.computeWriteSet,
   DriverStep.mutateTargetDuplicates,
   DriverStep.txnBegin,
   DriverStep.mutateNewCanonExtras,
   DriverStep.txnEnd,
   DriverStep.mutateAddNodesToGroup]

/-- The step sequence of `launch cif-unique` with `--add`: the clustering
result is computed, a scoped transaction wraps the loop writing the
`duplicates` extras (lines 185-200), and the new unique references are
added to the reference group after the transaction has closed
(lines 204-207). -/
def cif_unique_steps : List DriverStep :=
  [DriverStep.computeWriteSet,
   DriverStep.txnBegin,
   DriverStep.mutateSetDuplicatesExtra,
   DriverStep.txnEnd,
   DriverStep.mutateAddNodesToGroup]

/-- The mutation events of a step sequence, each tagged with whether it
happens inside an open transaction scope. -/
def mutationEvents (steps : List DriverStep) : List (DriverStep × Bool) :=
  (steps.foldl
    (fun (acc : List (DriverStep × Bool) × Nat) s =>
      match s with
      | DriverStep.txnBegin => (acc.1, acc.2 + 1)
      | DriverStep.txnEnd => (acc.1, acc.2 - 1)
      | s =>
        if s.isMutation then (acc.1 ++ [(s, decide (0 < acc.2))], acc.2) else acc)
    ([], 0)).1

/-! ## Sample records used by concrete witnesses and counterexamples -/

/-- A sample COD-sourced record. -/
def recA : StructureRecord :=
  { uuid := "uuid-a", nsites := 2, db := "cod", version := "1", extId := "100",
    formula := "F1", sortFails := false, incorrectFormula := false }

/-- A second sample COD-sourced record in the same bucket as `recA`. -/
def recB : StructureRecord :=
  { uuid := "uuid-b", nsites := 2, db := "cod", version := "1", extId := "101",
    formula := "F1", sortFails := false, incorrectFormula := false }

/-- A sample ICSD-sourced record in the same bucket as `recA`. -/
def recC : StructureRecord :=
  { uuid := "uuid-c", nsites := 3, db := "icsd", version := "2", extId := "200",
    formula := "F1", sortFails := false, incorrectFormula := false }

/-! ## Claim C1 — atomicity of the drivers' mutations -/

/-- Claim C1 is false on the code: not every store mutation of the two
drivers happens inside the scoped transaction.  In `run uniq` the target
duplicate-set updates are written before the transaction opens and the
new canonicals are added to the target group after it closes; in
`launch cif-unique` the group addition also happens after the transaction
closes. -/
theorem c1_counterexample :
    ¬ ((mutationEvents run_uniq_steps).all (fun e => e.2) = true ∧
       (mutationEvents cif_unique_steps).all (fun e => e.2) = true) := by
  decide

/-- Claim C1 (amended): in `run uniq` only the writes of the new
canonicals' `duplicates` extras happen inside the scoped transaction; the
duplicate-set updates on existing target structures are applied before it,
outside any transaction, and the addition of the new canonicals to the
target group happens after it.  In `launch cif-unique` the `duplicates`
extras are written inside a scoped transaction but the addition of the new
references to the reference group happens after it closes. -/
theorem c1_theorem :
    mutationEvents run_uniq_steps =
      [(DriverStep.mutateTargetDuplicates, false),
       (DriverStep.mutateNewCanonExtras, true),
       (DriverStep.mutateAddNodesToGroup, false)] ∧
    mutationEvents cif_unique_steps =
      [(DriverStep.mutateSetDuplicatesExtra, true),
       (DriverStep.mutateAddNodesToGroup, false)] := by
  decide

/-! ## Claim C2 — comparator failures in the clustering core -/

/-- Claim C2 is false on the code: a comparator exception does propagate
out of the clustering core.  `first_come_first_serve` in `run/uniq.py`
wraps no `try/except` around `matcher.fit`, so a raising comparator aborts
the clustering fold, and `structure_similarity` in `cif_unique.py` catches
only `TypeError`, so any other comparator exception propagates. -/
theorem c2_counterexample :
    first_come_first_serveE (fun _ _ => Except.error "comparator exception")
      [recA, recB] = Except.error "comparator exception" ∧
    structure_similarity MatcherOutcome.otherError "uuid-a" "uuid-b" =
      Except.error "unhandled comparator exception" := by
  constructor
  · rfl
  · rfl

/-- When the matcher never raises, the fallible clustering fold agrees with
the total one. -/
theorem first_come_first_serveE_ok
    (fit : StructureRecord → StructureRecord → Bool) (l : List StructureRecord) :
    first_come_first_serveE (fun a b => Except.ok (fit a b)) l =
      Except.ok (first_come_first_serve fit l) := by
  have hscan : ∀ r acc, fcfsScanE (fun a b => Except.ok (fit a b)) r acc =
      Except.ok (fcfsScan fit r acc) := by
    intro r acc
    induction acc with
    | nil => rfl
    | cons e es ih =>
      simp only [fcfsScanE, fcfsScan]
      cases h : fit r e.canon with
      | true => simp
      | false => simp [ih, Except.map]
  have hvisit : ∀ acc r, fcfsVisitE (fun a b => Except.ok (fit a b)) acc r =
      Except.ok (fcfsVisit fit acc r) := by
    intro acc r
    simp only [fcfsVisitE, fcfsVisit, hscan]
    cases fcfsScan fit r acc <;> rfl
  unfold first_come_first_serveE first_come_first_serve
  generalize ([] : List UniqEntry) = acc
  induction l generalizing acc with
  | nil => rfl
  | cons r rs ih =>
    simp only [List.foldlM, List.foldl, hvisit]
    exact ih _

/-- Claim C2 (amended): inside `cif_unique`'s adapter a comparator
`TypeError` is caught and converted to the verdict `0` together with a
recorded message identifying the pair, and a successful comparison is
converted to `1`/`0`; but any other comparator exception propagates out of
the adapter, and the clustering fold of `run/uniq.py` catches nothing at
all — it only completes when the matcher never raises, in which case it
agrees with the total fold. -/
theorem c2_theorem :
    (∀ ui uj, structure_similarity MatcherOutcome.typeError ui uj =
        Except.ok (0, some (ui, uj))) ∧
    (∀ ui uj b, structure_similarity (MatcherOutcome.ok b) ui uj =
        Except.ok ((if b then 1 else 0), none)) ∧
    (∀ ui uj, structure_similarity MatcherOutcome.otherError ui uj =
        Except.error "unhandled comparator exception") ∧
    (∀ fit l, first_come_first_serveE (fun a b => Except.ok (fit a b)) l =
        Except.ok (first_come_first_serve fit l)) :=
  ⟨fun _ _ => rfl, fun _ _ _ => rfl, fun _ _ => rfl,
   fun fit l => first_come_first_serveE_ok fit l⟩

/-! ## Claim C8 — the consistency assertions of `replace_structure` -/

/-- Claim C8: whenever the old canonical's duplicate set contains the old
canonical's own key, or does not contain the replacement's key,
`replace_structure` raises a fatal error and produces no mutated state. -/
theorem c8_theorem (st : LedgerState) (s repl : StructureRecord) (D : Finset String)
    (hD : lookupDup st.dup s.uuid = some D)
    (hviol : duplicateKey s ∈ D ∨ duplicateKey repl ∉ D) :
    ∃ msg, replace_structure st s repl = Except.error msg := by
  unfold replace_structure
  rw [hD]
  rcases hviol with h | h
  · exact ⟨"AssertionError: found the original source in the duplicates", by simp [h]⟩
  · by_cases hs : duplicateKey s ∈ D
    · exact ⟨"AssertionError: found the original source in the duplicates", by simp [hs]⟩
    · exact ⟨"AssertionError: did not find the replacement source in the duplicates",
        by simp [hs, h]⟩

/-- Witness for C8: a concrete ledger whose duplicate set does not contain
the replacement's key makes `replace_structure` fail without mutating. -/
theorem c8_witness :
    ∃ msg, replace_structure ⟨[("uuid-a", {"x|y|z"})], ["uuid-a"]⟩ recA recB =
      Except.error msg :=
  c8_theorem ⟨[("uuid-a", {"x|y|z"})], ["uuid-a"]⟩ recA recB {"x|y|z"}
    (by decide) (by decide)

/-! ## Claim C9 — exit status on resolution and assertion failures -/

/-- Claim C9 is false on the code for `run uniq`: an unresolvable source
group (and likewise an unresolvable target group without
`--create-target-group`) prints an error message but the command returns
normally, so the process exits with a success status rather than a failure
status. -/
theorem c9_counterexample :
    uniq_command_exit false true false = (ExitStatus.ok, true) ∧
    uniq_command_exit true false false = (ExitStatus.ok, true) := by
  decide

/-- Claim C9 (amended): `run select` terminates with a failure status
whenever the scanned group or the unique group cannot be resolved or a
ledger assertion fails, but `run uniq` merely prints an error message and
exits with a success status when the source or target group cannot be
resolved. -/
theorem c9_theorem :
    (∀ g u a : Bool, (g = false ∨ u = false ∨ a = false) →
        select_command_exit g u a = ExitStatus.failure) ∧
    (∀ s t c : Bool, (s = false ∨ (t = false ∧ c = false)) →
        uniq_command_exit s t c = (ExitStatus.ok, true)) := by
  decide

/-- Witness for C9: the amended exit behaviour at concrete flags. -/
theorem c9_witness :
    select_command_exit false true true = ExitStatus.failure ∧
    uniq_command_exit false true false = (ExitStatus.ok, true) :=
  ⟨c9_theorem.1 false true true (Or.inl rfl),
   c9_theorem.2 false true false (Or.inl rfl)⟩

/-! ## Claim C3 — canonical selection and stability -/

/-- Claim C3: for every equivalence class, if some member is already a
canonical record of the reference set then the selected canonical is such a
member (an established canonical is never demoted); otherwise the first
record in the class's deterministic order becomes canonical; and when an
established canonical `C` is the only member of the (possibly grown) class
that is in the reference set — as after re-running over an unchanged
reference set with the same or a superset of candidates — the selection is
exactly `C` again. -/
theorem c3_theorem (ps : List StructureRecord) (refs : List String)
    (C : StructureRecord) :
    ((∃ r ∈ ps, r.uuid ∈ refs) →
       select_prototype_reference ps refs ∈ ps ∧
       (select_prototype_reference ps refs).uuid ∈ refs) ∧
    ((∀ r ∈ ps, r.uuid ∉ refs) →
       select_prototype_reference ps refs = ps.headI) ∧
    (C ∈ ps → C.uuid ∈ refs → (∀ r ∈ ps, r.uuid ∈ refs → r = C) →
       select_prototype_reference ps refs = C) := by
  refine ⟨?_, ?_, ?_⟩
  · rintro ⟨r, hr, hru⟩
    have hsome : (ps.find? (fun s => decide (s.uuid ∈ refs))).isSome := by
      rw [List.find?_isSome]
      exact ⟨r, hr, by simpa using hru⟩
    rcases Option.isSome_iff_exists.mp hsome with ⟨s, hs⟩
    have hmem : s ∈ ps := List.mem_of_find?_eq_some hs
    have hp : s.uuid ∈ refs := by simpa using List.find?_some hs
    simp [select_prototype_reference, hs, hmem, hp]
  · intro h
    have hnone : ps.find? (fun s => decide (s.uuid ∈ refs)) = none := by
      rw [List.find?_eq_none]
      intro x hx
      simpa using h x hx
    simp [select_prototype_reference, hnone]
  · intro hC hCu huniq
    have hsome : (ps.find? (fun s => decide (s.uuid ∈ refs))).isSome := by
      rw [List.find?_isSome]
      exact ⟨C, hC, by simpa using hCu⟩
    rcases Option.isSome_iff_exists.mp hsome with ⟨s, hs⟩
    have hmem : s ∈ ps := List.mem_of_find?_eq_some hs
    have hp : s.uuid ∈ refs := by simpa using List.find?_some hs
    have : s = C := huniq s hmem hp
    simp [select_prototype_reference, hs, this]

/-- Witness for C3: a concrete class in which `recB` is the established
reference canonical — the selector keeps it — together with the
no-reference case selecting the first record. -/
theorem c3_witness :
    ((∃ r ∈ [recA, recB, recC], r.uuid ∈ ["uuid-b"]) →
       select_prototype_reference [recA, recB, recC] ["uuid-b"] ∈ [recA, recB, recC] ∧
       (select_prototype_reference [recA, recB, recC] ["uuid-b"]).uuid ∈ ["uuid-b"]) ∧
    ((∀ r ∈ [recA, recB, recC], r.uuid ∉ ["uuid-b"]) →
       select_prototype_reference [recA, recB, recC] ["uuid-b"] =
         [recA, recB, recC].headI) ∧
    ([recB] ≠ [] →
       select_prototype_reference [recA, recB, recC] ["uuid-b"] = recB) := by
  have h := c3_theorem [recA, recB, recC] ["uuid-b"] recB
  refine ⟨h.1, h.2.1, fun _ => h.2.2 (by decide) (by decide) (by decide)⟩

/-! ## Shared helper lemmas about the embedded store operations -/

theorem lookupDup_setDup_self (d : List (String × Finset String)) (u : String)
    (v : Finset String) : lookupDup (setDup d u v) u = some v := by
  induction d with
  | nil =>
    simp only [setDup, lookupDup]
    rw [List.find?_cons_of_pos _ (by simp)]
    rfl
  | cons p rest ih =>
    obtain ⟨u', v'⟩ := p
    by_cases h : u' = u
    · simp only [setDup, if_pos h, lookupDup]
      rw [List.find?_cons_of_pos _ (by simp)]
      rfl
    · simp only [setDup, if_neg h, lookupDup]
      rw [List.find?_cons_of_neg _ (by simp [h])]
      exact ih

theorem lookupDup_setDup_other (d : List (String × Finset String)) (u w : String)
    (v : Finset String) (hne : w ≠ u) : lookupDup (setDup d u v) w = lookupDup d w := by
  have hne' : u ≠ w := fun hh => hne hh.symm
  induction d with
  | nil =>
    simp only [setDup, lookupDup]
    rw [List.find?_cons_of_neg _ (by simp [hne'])]
  | cons p rest ih =>
    obtain ⟨u', v'⟩ := p
    by_cases h : u' = u
    · have hs : setDup ((u', v') :: rest) u v = (u, v) :: rest := by
        simp [setDup, h]
      rw [hs]
      simp only [lookupDup]
      rw [List.find?_cons_of_neg _ (by simp [hne']),
        List.find?_cons_of_neg _ (by simp [h, hne'])]
    · simp only [setDup, if_neg h, lookupDup]
      by_cases hw : u' = w
      · rw [List.find?_cons_of_pos _ (by simp [hw]),
          List.find?_cons_of_pos _ (by simp [hw])]
      · rw [List.find?_cons_of_neg _ (by simp [hw]),
          List.find?_cons_of_neg _ (by simp [hw])]
        exact ih

/-- Rewriting a binding with the value it already holds leaves the
association list unchanged. -/
theorem setDup_eq_self {d : List (String × Finset String)} {u : String}
    {v : Finset String} (h : lookupDup d u = some v) : setDup d u v = d := by
  induction d with
  | nil => simp [lookupDup, List.find?] at h
  | cons p rest ih =>
    obtain ⟨u', v'⟩ := p
    by_cases hu : u' = u
    · subst hu
      have : v' = v := by
        simpa [lookupDup, List.find?] using h
      simp [setDup, this]
    · have h' : lookupDup rest u = some v := by
        simpa [lookupDup, List.find?, hu] using h
      simp [setDup, hu, ih h']

/-- Every identifier stored by `extra_setdefault_append` is the appended
value or was already stored. -/
theorem extra_values_setdefault_perm (acc : List (String × List String))
    (k v : String) :
    List.Perm (extra_values (extra_setdefault_append acc k v)) (v :: extra_values acc) := by
  induction acc with
  | nil => simp [extra_setdefault_append, extra_values]
  | cons p rest ih =>
    obtain ⟨k', vs⟩ := p
    by_cases h : k' = k
    · subst h
      simp only [extra_setdefault_append, if_pos rfl]
      simp only [extra_values, List.map_cons, List.flatten_cons]
      have h1 : List.Perm (vs ++ [v]) (v :: vs) := List.perm_append_singleton v vs
      have h2 := h1.append_right ((rest.map Prod.snd).flatten)
      simp only [List.cons_append] at h2
      exact h2
    · simp only [extra_setdefault_append, if_neg h]
      simp only [extra_values, List.map_cons, List.flatten_cons] at ih ⊢
      have h1 := ih.append_left vs
      exact h1.trans List.perm_middle

/-- The identifiers persisted by `cif_unique` for a prototype are exactly
the uuids of the prototype's members. -/
theorem cif_unique_extra_values_perm (members : List StructureRecord) :
    List.Perm (extra_values (cif_unique_duplicates_extra members))
      (members.map (fun s => s.uuid)) := by
  suffices h : ∀ (l : List StructureRecord) (acc : List (String × List String)),
      List.Perm (extra_values (l.foldl (fun a s => extra_setdefault_append a s.db s.uuid) acc))
        (l.map (fun s => s.uuid) ++ extra_values acc) by
    simpa [cif_unique_duplicates_extra, extra_values] using h members []
  intro l
  induction l with
  | nil => intro acc; simp
  | cons s rest ih =>
    intro acc
    simp only [List.foldl_cons, List.map_cons]
    have h1 := ih (extra_setdefault_append acc s.db s.uuid)
    have h2 := (extra_values_setdefault_perm acc s.db s.uuid).append_left
      (rest.map (fun s => s.uuid))
    exact (h1.trans h2).trans List.perm_middle

/-! ## Claim C4 — self-exclusion and idempotence of duplicate sets -/

/-- Claim C4 is false on the code: `cif_unique` persists, as the
`duplicates` extra of every prototype member, a database-keyed map of
member uuids that contains the member's *own* identity (its own duplicate
key in the `uuid` style). -/
theorem c4_counterexample :
    get_duplicate_id recA DupStyle.uuid ∈
      extra_values (cif_unique_duplicates_extra [recA]) := by
  decide

/-- Claim C4 (amended): in the `run uniq` path the ledger update never
leaves the canonical's own key in the written duplicate set and is
idempotent — applying the union of the same member keys twice produces the
same set — but in the `cif_unique` path the persisted duplicates extra of a
class member always contains that member's own uuid, so self-exclusion
fails there. -/
theorem c4_theorem :
    (∀ (d K : Finset String) (own : String), own ∉ ledger_union d K own) ∧
    (∀ (d K : Finset String) (own : String),
        ledger_union (ledger_union d K own) K own = ledger_union d K own) ∧
    (∀ (st : DriverState) (acc : List StructureRecord) (e : UniqEntry) res,
        applyNewEntries st acc [e] = some res →
        lookupDup res.1.dup e.canon.uuid =
          some (ledger_union ((lookupDup st.dup e.canon.uuid).getD ∅)
            ((e.members.map duplicateKey).toFinset) (duplicateKey e.canon)) ∧
        duplicateKey e.canon ∉ (lookupDup res.1.dup e.canon.uuid).getD ∅) ∧
    (∀ (members : List StructureRecord), ∀ s ∈ members,
        s.uuid ∈ extra_values (cif_unique_duplicates_extra members)) := by
  refine ⟨?_, ?_, ?_, ?_⟩
  · intro d K own
    exact Finset.not_mem_erase own _
  · intro d K own
    ext x
    simp only [ledger_union, Finset.mem_erase, Finset.mem_union]
    tauto
  · intro st acc e res h
    simp only [applyNewEntries] at h
    by_cases hin : duplicateKey e.canon ∈
        (lookupDup st.dup e.canon.uuid).getD ∅ ∪ (e.members.map duplicateKey).toFinset
    · rw [if_pos hin] at h
      simp only [applyNewEntries, Option.some.injEq] at h
      subst h
      refine ⟨lookupDup_setDup_self _ _ _, ?_⟩
      rw [lookupDup_setDup_self]
      exact Finset.not_mem_erase _ _
    · rw [if_neg hin] at h
      exact absurd h (by simp)
  · intro members s hs
    have hperm := cif_unique_extra_values_perm members
    rw [hperm.mem_iff]
    exact List.mem_map_of_mem _ hs

/-- Witness for C4: a concrete new entry written by the driver excludes the
canonical's own key, while the concrete `cif_unique` extra contains the own
uuid. -/
theorem c4_witness :
    (applyNewEntries ⟨[], []⟩ [] [⟨recA, [recA, recB]⟩] =
        some (⟨[], [("uuid-a", {"cod|1|101"})]⟩, [recA]) →
      lookupDup (⟨[], [("uuid-a", {"cod|1|101"})]⟩ : DriverState).dup recA.uuid =
        some (ledger_union ((lookupDup (⟨[], []⟩ : DriverState).dup recA.uuid).getD ∅)
          (([recA, recB].map duplicateKey).toFinset) (duplicateKey recA)) ∧
      duplicateKey recA ∉
        (lookupDup (⟨[], [("uuid-a", {"cod|1|101"})]⟩ : DriverState).dup recA.uuid).getD ∅) ∧
    recA.uuid ∈ extra_values (cif_unique_duplicates_extra [recA, recB]) := by
  constructor
  · intro h
    exact c4_theorem.2.2.1 ⟨[], []⟩ [] ⟨recA, [recA, recB]⟩ _ h
  · exact c4_theorem.2.2.2 [recA, recB] recA (by decide)

/-! ## Claim C5 — one duplicate-key format everywhere -/

/-- Claim C5 is false on the code: `cif_unique` persists, inside the
`duplicates` extras, strings that are raw uuids rather than the
`database|version|id` key of any record of the class. -/
theorem c5_counterexample :
    ∃ x ∈ extra_values (cif_unique_duplicates_extra [recA]),
      ∀ r ∈ [recA], x ≠ duplicateKey r := by
  decide

/-- Claim C5 (amended): the `run uniq` ledger path references duplicates by
the three-part `database|version|id` source key — every identifier the
target-duplicate computation can introduce is either already stored or the
`duplicateKey` of a class member — but `launch cif-unique` persists the raw
member uuids grouped by database, and `get_ok_duplicates` of the select
flow returns two-part `database|id` strings, so a single format is not used
at every site. -/
theorem c5_theorem :
    (∀ (st : DriverState) (t : StructureRecord) (e : UniqEntry) (d : Finset String),
        target_duplicates_for_entry st t e = some d →
        ∀ x ∈ d, x ∈ (lookupDup st.dup t.uuid).getD ∅ ∨
          (∃ m ∈ e.members, x = duplicateKey m) ∨
          (∃ m ∈ e.members, x ∈ (lookupDup st.dup m.uuid).getD ∅)) ∧
    (∀ members : List StructureRecord,
        List.Perm (extra_values (cif_unique_duplicates_extra members))
          (members.map (fun s => s.uuid))) ∧
    (∀ (fd : String → String → Option FlagRow) (dups res : List String),
        get_ok_duplicates fd dups = Except.ok res →
        ∀ x ∈ res, ∃ dup ∈ dups, ∃ ddb dv did,
          splitOnBar dup = [ddb, dv, did] ∧ x = ddb ++ "|" ++ did) := by
  refine ⟨?_, cif_unique_extra_values_perm, ?_⟩
  · intro st t e d h x hx
    simp only [target_duplicates_for_entry, Option.map_eq_some'] at h
    obtain ⟨d0, hd0, hfold⟩ := h
    subst hfold
    rw [hd0]
    have main : ∀ (l : List StructureRecord) (acc : Finset String),
        x ∈ l.foldl (fun acc m => acc ∪ get_duplicate_set st.dup m) acc →
        x ∈ acc ∨ ∃ m ∈ l, x ∈ get_duplicate_set st.dup m := by
      intro l
      induction l with
      | nil => intro acc h; exact Or.inl h
      | cons m rest ih =>
        intro acc h
        rcases ih _ h with h' | ⟨m', hm', hx'⟩
        · rcases Finset.mem_union.mp h' with h'' | h''
          · exact Or.inl h''
          · exact Or.inr ⟨m, List.mem_cons_self m rest, h''⟩
        · exact Or.inr ⟨m', List.mem_cons_of_mem m hm', hx'⟩
    rcases main e.members d0 hx with h' | ⟨m, hm, hx'⟩
    · simp only [Option.getD_some]
      exact Or.inl h'
    · simp only [get_duplicate_set, Finset.mem_insert] at hx'
      rcases hx' with h'' | h''
      · exact Or.inr (Or.inl ⟨m, hm, h''⟩)
      · exact Or.inr (Or.inr ⟨m, hm, h''⟩)
  · intro fd dups res h x hx
    have step : ∀ (acc : List String) (dup : String) res,
        get_ok_duplicates_step fd acc dup = Except.ok res →
        res = acc ∨ ∃ ddb dv did,
          splitOnBar dup = [ddb, dv, did] ∧ res = acc ++ [ddb ++ "|" ++ did] := by
      intro acc dup res h
      unfold get_ok_duplicates_step at h
      split at h
      case h_1 ddb dv did heq =>
        split at h
        case h_1 row hrow =>
          split at h
          · cases h; exact Or.inl rfl
          · cases h; exact Or.inr ⟨ddb, dv, did, heq, rfl⟩
        case h_2 => cases h; exact Or.inl rfl
      case h_2 => cases h
    have main : ∀ (l : List String) (acc res : List String),
        l.foldlM (get_ok_duplicates_step fd) acc = Except.ok res →
        ∀ x ∈ res, x ∈ acc ∨ ∃ dup ∈ l, ∃ ddb dv did,
          splitOnBar dup = [ddb, dv, did] ∧ x = ddb ++ "|" ++ did := by
      intro l
      induction l with
      | nil =>
        intro acc res h x hx
        simp only [List.foldlM_nil] at h
        cases h
        exact Or.inl hx
      | cons dup rest ih =>
        intro acc res h x hx
        rw [List.foldlM_cons] at h
        rcases hstep : get_ok_duplicates_step fd acc dup with m | acc'
        · rw [hstep] at h
          simp [bind, Except.bind] at h
        · rw [hstep] at h
          simp only [bind, Except.bind] at h
          rcases ih _ _ h x hx with h' | ⟨dup', hd', w⟩
          · rcases step acc dup acc' hstep with he | ⟨ddb, dv, did, hsp, he⟩
            · exact Or.inl (he ▸ h')
            · rw [he] at h'
              rcases List.mem_append.mp h' with h'' | h''
              · exact Or.inl h''
              · have hx' : x = ddb ++ "|" ++ did := by simpa using h''
                exact Or.inr ⟨dup, List.mem_cons_self dup rest, ddb, dv, did, hsp, hx'⟩
          · exact Or.inr ⟨dup', List.mem_cons_of_mem _ hd', w⟩
    rcases main dups [] res h x hx with h' | w
    · exact absurd h' (List.not_mem_nil x)
    · exact w

/-- Witness for C5: the concrete target-duplicate computation only
introduces source-style keys, and the concrete `cif_unique` extra holds
exactly the member uuids. -/
theorem c5_witness :
    (target_duplicates_for_entry ⟨[recA], [("uuid-a", ∅)]⟩ recA ⟨recA, [recA, recB]⟩ =
        some {"cod|1|100", "cod|1|101"} →
      ∀ x ∈ ({"cod|1|100", "cod|1|101"} : Finset String),
        x ∈ (lookupDup [("uuid-a", (∅ : Finset String))] recA.uuid).getD ∅ ∨
          (∃ m ∈ [recA, recB], x = duplicateKey m) ∨
          (∃ m ∈ [recA, recB], x ∈ (lookupDup [("uuid-a", (∅ : Finset String))] m.uuid).getD ∅)) ∧
    List.Perm (extra_values (cif_unique_duplicates_extra [recA, recB]))
      ["uuid-a", "uuid-b"] := by
  constructor
  · intro h
    exact c5_theorem.1 ⟨[recA], [("uuid-a", ∅)]⟩ recA ⟨recA, [recA, recB]⟩ _ h
  · simpa using c5_theorem.2.1 [recA, recB]

/-! ## Claim C7 — greedy clustering refines connected components -/

/-- Characterisation of a successful `fcfsScan`: the unique list splits at
the first matching entry, and only that entry's member list is extended. -/
theorem fcfsScan_some {fit : StructureRecord → StructureRecord → Bool}
    {r : StructureRecord} :
    ∀ {acc acc' : List UniqEntry}, fcfsScan fit r acc = some acc' →
      ∃ pre e post, acc = pre ++ e :: post ∧
        acc' = pre ++ { e with members := e.members ++ [r] } :: post ∧
        fit r e.canon = true ∧ ∀ e' ∈ pre, fit r e'.canon = false := by
  intro acc
  induction acc with
  | nil => intro acc' h; cases h
  | cons e es ih =>
    intro acc' h
    simp only [fcfsScan] at h
    by_cases hf : fit r e.canon
    · rw [if_pos hf] at h
      cases h
      exact ⟨[], e, es, rfl, rfl, hf, by simp⟩
    · rw [if_neg hf] at h
      cases hres : fcfsScan fit r es with
      | none => rw [hres] at h; cases h
      | some es' =>
        rw [hres] at h
        simp only [Option.map_some'] at h
        cases h
        obtain ⟨pre, e', post, h1, h2, h3, h4⟩ := ih hres
        refine ⟨e :: pre, e', post, by rw [h1]; rfl, by rw [h2]; rfl, h3, ?_⟩
        intro e'' he''
        rcases List.mem_cons.mp he'' with h' | h'
        · subst h'
          exact Bool.eq_false_iff.mpr hf
        · exact h4 e'' h'

/-- A failing scan means no unique entry matched. -/
theorem fcfsScan_none {fit : StructureRecord → StructureRecord → Bool}
    {r : StructureRecord} :
    ∀ {acc : List UniqEntry}, fcfsScan fit r acc = none →
      ∀ e ∈ acc, fit r e.canon = false := by
  intro acc
  induction acc with
  | nil => intro _ e he; cases he
  | cons e es ih =>
    intro h e' he'
    simp only [fcfsScan] at h
    by_cases hf : fit r e.canon
    · rw [if_pos hf] at h; cases h
    · rw [if_neg hf] at h
      rcases List.mem_cons.mp he' with h' | h'
      · subst h'; exact Bool.eq_false_iff.mpr hf
      · cases hres : fcfsScan fit r es with
        | none => exact ih hres e' h'
        | some es' => rw [hres] at h; cases h

/-- Scanning past a prefix of non-matching entries modifies the first
matching entry. -/
theorem fcfsScan_prefix {fit : StructureRecord → StructureRecord → Bool}
    {r : StructureRecord} :
    ∀ (pre : List UniqEntry) (e : UniqEntry) (post : List UniqEntry),
      (∀ e' ∈ pre, fit r e'.canon = false) → fit r e.canon = true →
      fcfsScan fit r (pre ++ e :: post) =
        some (pre ++ { e with members := e.members ++ [r] } :: post) := by
  intro pre
  induction pre with
  | nil =>
    intro e post _ hf
    simp [fcfsScan, hf]
  | cons e0 pre ih =>
    intro e post hpre hf
    have h0 : fit r e0.canon = false := hpre e0 (List.mem_cons_self _ _)
    simp only [List.cons_append, fcfsScan, h0]
    rw [if_neg (by simp [h0])]
    simp only [List.append_eq]
    rw [ih e post (fun e' he' => hpre e' (List.mem_cons_of_mem _ he')) hf]
    rfl

/-- A `fcfsNew` on a uuid no existing canonical carries appends a fresh
singleton entry. -/
theorem fcfsNew_fresh {r : StructureRecord} :
    ∀ {acc : List UniqEntry}, (∀ e ∈ acc, e.canon.uuid ≠ r.uuid) →
      fcfsNew r acc = acc ++ [⟨r, [r]⟩] := by
  intro acc
  induction acc with
  | nil => intro _; rfl
  | cons e es ih =>
    intro h
    have he : e.canon.uuid ≠ r.uuid := h e (List.mem_cons_self e es)
    simp only [fcfsNew, if_neg he, List.cons_append, List.cons.injEq, true_and]
    exact ih (fun e' he' => h e' (List.mem_cons_of_mem e he'))

/-- The running invariant of the greedy fold: the member lists partition
the processed records, every entry's canonical is among its members, and
every member was deemed equal to its entry's canonical (or is the
canonical itself). -/
theorem fcfs_fold_inv (fit : StructureRecord → StructureRecord → Bool) :
    ∀ (l₂ p : List StructureRecord) (acc : List UniqEntry),
      ((p ++ l₂).map (fun r => r.uuid)).Nodup →
      List.Perm (acc.map (fun e => e.members)).flatten p →
      (∀ e ∈ acc, e.canon ∈ e.members) →
      (∀ e ∈ acc, ∀ m ∈ e.members, m = e.canon ∨ fit m e.canon = true) →
      List.Perm ((l₂.foldl (fcfsVisit fit) acc).map (fun e => e.members)).flatten
          (p ++ l₂) ∧
        (∀ e ∈ l₂.foldl (fcfsVisit fit) acc, e.canon ∈ e.members) ∧
        (∀ e ∈ l₂.foldl (fcfsVisit fit) acc, ∀ m ∈ e.members,
          m = e.canon ∨ fit m e.canon = true) := by
  intro l₂
  induction l₂ with
  | nil =>
    intro p acc _ h1 h2 h3
    simpa using ⟨h1, h2, h3⟩
  | cons r l₂' ih =>
    intro p acc hu h1 h2 h3
    have hmemp : ∀ e ∈ acc, ∀ m ∈ e.members, m ∈ p := by
      intro e he m hm
      exact h1.mem_iff.mp (List.mem_flatten.mpr ⟨e.members, List.mem_map_of_mem _ he, hm⟩)
    have step : List.Perm (((fcfsVisit fit acc r).map (fun e => e.members)).flatten)
        (p ++ [r]) ∧
        (∀ e ∈ fcfsVisit fit acc r, e.canon ∈ e.members) ∧
        (∀ e ∈ fcfsVisit fit acc r, ∀ m ∈ e.members,
          m = e.canon ∨ fit m e.canon = true) := by
      cases hscan : fcfsScan fit r acc with
      | some acc' =>
        have hvisit : fcfsVisit fit acc r = acc' := by
          unfold fcfsVisit; rw [hscan]
        rw [hvisit]
        obtain ⟨pre, e, post, hsplit, hacc', hfit, -⟩ := fcfsScan_some hscan
        subst hsplit; subst hacc'
        refine ⟨?_, ?_, ?_⟩
        · simp only [List.map_append, List.map_cons, List.flatten_append,
            List.flatten_cons] at h1 ⊢
          have key : List.Perm
              ((pre.map (fun e => e.members)).flatten ++
                ((e.members ++ [r]) ++ (post.map (fun e => e.members)).flatten))
              (((pre.map (fun e => e.members)).flatten ++
                (e.members ++ (post.map (fun e => e.members)).flatten)) ++ [r]) := by
            rw [List.perm_iff_count]
            intro a
            simp only [List.count_append, List.count_cons, List.count_nil]
            omega
          exact key.trans (h1.append_right [r])
        · intro e' he'
          rcases List.mem_append.mp he' with h' | h'
          · exact h2 e' (by simp [List.mem_append.mpr (Or.inl h')])
          · rcases List.mem_cons.mp h' with h'' | h''
            · subst h''
              exact List.mem_append.mpr (Or.inl (h2 e (by simp)))
            · exact h2 e' (by simp [h''])
        · intro e' he' m hm
          rcases List.mem_append.mp he' with h' | h'
          · exact h3 e' (by simp [List.mem_append.mpr (Or.inl h')]) m hm
          · rcases List.mem_cons.mp h' with h'' | h''
            · subst h''
              simp only at hm
              rcases List.mem_append.mp hm with h4 | h4
              · exact h3 e (by simp) m h4
              · have : m = r := by simpa using h4
                subst this
                exact Or.inr hfit
            · exact h3 e' (by simp [h'']) m hm
      | none =>
        have hvisit : fcfsVisit fit acc r = fcfsNew r acc := by
          unfold fcfsVisit; rw [hscan]
        rw [hvisit]
        have hfresh : ∀ e ∈ acc, e.canon.uuid ≠ r.uuid := by
          intro e he heq
          have hc : e.canon ∈ p := hmemp e he e.canon (h2 e he)
          have h5 : e.canon.uuid ∈ p.map (fun s => s.uuid) :=
            List.mem_map_of_mem _ hc
          have h6 : r.uuid ∈ (r :: l₂').map (fun s => s.uuid) := by simp
          rw [List.map_append, List.nodup_append] at hu
          exact hu.2.2 h5 (heq ▸ h6)
        rw [fcfsNew_fresh hfresh]
        refine ⟨?_, ?_, ?_⟩
        · simp only [List.map_append, List.flatten_append, List.map_cons,
            List.flatten_cons]
          simpa using h1.append_right [r]
        · intro e' he'
          rcases List.mem_append.mp he' with h' | h'
          · exact h2 e' h'
          · have : e' = ⟨r, [r]⟩ := by simpa using h'
            subst this; simp
        · intro e' he' m hm
          rcases List.mem_append.mp he' with h' | h'
          · exact h3 e' h' m hm
          · have : e' = ⟨r, [r]⟩ := by simpa using h'
            subst this
            have : m = r := by simpa using hm
            subst this
            exact Or.inl rfl
    have hu' : (((p ++ [r]) ++ l₂').map (fun s => s.uuid)).Nodup := by
      simpa [List.append_assoc] using hu
    have := ih (p ++ [r]) (fcfsVisit fit acc r) hu' step.1 step.2.1 step.2.2
    simpa [List.append_assoc] using this

/-- The facts about `first_come_first_serve` needed below: its member lists
partition the bucket, each canonical is a member of its own class, and each
member matched its canonical. -/
theorem fcfs_facts (fit : StructureRecord → StructureRecord → Bool)
    (l : List StructureRecord) (hu : (l.map (fun r => r.uuid)).Nodup) :
    List.Perm ((first_come_first_serve fit l).map (fun e => e.members)).flatten l ∧
    (∀ e ∈ first_come_first_serve fit l, e.canon ∈ e.members) ∧
    (∀ e ∈ first_come_first_serve fit l, ∀ m ∈ e.members,
      m = e.canon ∨ fit m e.canon = true) := by
  have := fcfs_fold_inv fit l [] [] (by simpa using hu) (by simp) (by simp) (by simp)
  simpa [first_come_first_serve] using this

/-- Two classes are separated when the matcher links no pair across them,
in either argument order. -/
def sep (fit : StructureRecord → StructureRecord → Bool)
    (c d : List StructureRecord) : Prop :=
  ∀ x ∈ c, ∀ y ∈ d, fit x y = false ∧ fit y x = false

theorem sep_symm (fit : StructureRecord → StructureRecord → Bool) :
    Symmetric (sep fit) := by
  intro c d h y hy x hx
  exact ⟨(h x hx y hy).2, (h x hx y hy).1⟩

theorem cc_insert_flatten_perm (fit : StructureRecord → StructureRecord → Bool)
    (r : StructureRecord) :
    ∀ cs, List.Perm (cc_insert fit r cs).flatten (r :: cs.flatten) := by
  intro cs
  induction cs with
  | nil => simp [cc_insert]
  | cons c cs ih =>
    by_cases hl : linked_to fit r c
    · simp only [cc_insert, if_pos hl, List.flatten_cons]
      have haux : List.Perm
          ((cs.filter (linked_to fit r)).flatten ++
            (cs.filter (fun d => !(linked_to fit r d))).flatten)
          cs.flatten := by
        have := (List.filter_append_perm (linked_to fit r) cs).flatten
        simpa [List.flatten_append] using this
      rw [List.append_assoc, List.singleton_append]
      refine List.perm_middle.trans (List.Perm.cons r ?_)
      rw [List.append_assoc]
      exact haux.append_left c
    · simp only [cc_insert, if_neg hl, List.flatten_cons]
      exact (ih.append_left c).trans List.perm_middle

theorem cc_insert_nonempty (fit : StructureRecord → StructureRecord → Bool)
    (r : StructureRecord) :
    ∀ cs, (∀ c ∈ cs, c ≠ []) → ∀ c ∈ cc_insert fit r cs, c ≠ [] := by
  intro cs
  induction cs with
  | nil =>
    intro _ c hc
    have : c = [r] := by simpa [cc_insert] using hc
    simp [this]
  | cons c0 cs ih =>
    intro h c hc
    by_cases hl : linked_to fit r c0
    · simp only [cc_insert, if_pos hl] at hc
      rcases List.mem_cons.mp hc with h' | h'
      · subst h'; simp
      · exact h _ (List.mem_cons_of_mem _ (List.mem_of_mem_filter h'))
    · simp only [cc_insert, if_neg hl] at hc
      rcases List.mem_cons.mp hc with h' | h'
      · subst h'; exact h _ (List.mem_cons_self _ _)
      · exact ih (fun d hd => h d (List.mem_cons_of_mem _ hd)) c h'

/-- A class not linked to `r` contains no structure the matcher links to
`r`. -/
theorem linked_to_false {fit : StructureRecord → StructureRecord → Bool}
    {r : StructureRecord} {u : List StructureRecord}
    (h : linked_to fit r u = false) : ∀ y ∈ u, fit y r = false := by
  intro y hy
  by_contra hcon
  have hy' : fit y r = true := by
    cases hfb : fit y r with
    | false => exact absurd hfb hcon
    | true => rfl
  have : u.any (fun x => fit x r) = true := List.any_eq_true.mpr ⟨y, hy, hy'⟩
  rw [linked_to] at h
  rw [h] at this
  cases this

theorem cc_insert_pairwise {fit : StructureRecord → StructureRecord → Bool}
    (hsym : ∀ a b, fit a b = fit b a) (r : StructureRecord) :
    ∀ cs, List.Pairwise (sep fit) cs →
      List.Pairwise (sep fit) (cc_insert fit r cs) := by
  intro cs
  induction cs with
  | nil => intro _; simp [cc_insert, List.pairwise_singleton]
  | cons c cs ih =>
    intro h
    obtain ⟨hR, hP⟩ := List.pairwise_cons.mp h
    by_cases hl : linked_to fit r c
    · simp only [cc_insert, if_pos hl]
      refine List.pairwise_cons.mpr ⟨?_, ?_⟩
      · intro u hu x hx y hy
        have hucs : u ∈ cs := List.mem_of_mem_filter hu
        have huU : linked_to fit r u = false := by
          have := List.of_mem_filter hu
          simpa using this
        have hyr : fit y r = false := linked_to_false huU y hy
        rcases List.mem_append.mp hx with hx' | hx'
        · rcases List.mem_append.mp hx' with hx'' | hx''
          · exact hR u hucs x hx'' y hy
          · obtain ⟨d, hd, hxd⟩ := List.mem_flatten.mp hx''
            have hdcs : d ∈ cs := List.mem_of_mem_filter hd
            have hdL : linked_to fit r d = true := List.of_mem_filter hd
            have hdu : d ≠ u := by
              intro heq
              rw [heq, huU] at hdL
              cases hdL
            exact List.Pairwise.forall (sep_symm fit) hP hdcs hucs hdu x hxd y hy
        · have hx'' : x = r := by simpa using hx'
          subst hx''
          exact ⟨(hsym x y) ▸ hyr, hyr⟩
      · exact hP.sublist (List.filter_sublist cs)
    · simp only [cc_insert, if_neg hl]
      refine List.pairwise_cons.mpr ⟨?_, ih hP⟩
      intro d hd x hx y hy
      have hxr : fit x r = false := linked_to_false (by simpa using hl) x hx
      have hymem : y ∈ (cc_insert fit r cs).flatten :=
        List.mem_flatten.mpr ⟨d, hd, hy⟩
      have : y ∈ r :: cs.flatten := (cc_insert_flatten_perm fit r cs).mem_iff.mp hymem
      rcases List.mem_cons.mp this with hy' | hy'
      · subst hy'
        exact ⟨hxr, (hsym y x) ▸ hxr⟩
      · obtain ⟨d', hd', hyd'⟩ := List.mem_flatten.mp hy'
        exact hR d' hd' x hx y hyd'

/-- The running invariant of the component fold: the classes partition the
processed records, are nonempty, and are pairwise separated. -/
theorem seb_fold_inv {fit : StructureRecord → StructureRecord → Bool}
    (hsym : ∀ a b, fit a b = fit b a) :
    ∀ (l₂ p : List StructureRecord) (acc : List (List StructureRecord)),
      List.Perm acc.flatten p → (∀ c ∈ acc, c ≠ []) →
      List.Pairwise (sep fit) acc →
      List.Perm (l₂.foldl (fun a r => cc_insert fit r a) acc).flatten (p ++ l₂) ∧
        (∀ c ∈ l₂.foldl (fun a r => cc_insert fit r a) acc, c ≠ []) ∧
        List.Pairwise (sep fit) (l₂.foldl (fun a r => cc_insert fit r a) acc) := by
  intro l₂
  induction l₂ with
  | nil =>
    intro p acc h1 h2 h3
    simpa using ⟨h1, h2, h3⟩
  | cons r l₂' ih =>
    intro p acc h1 h2 h3
    have s1 : List.Perm (cc_insert fit r acc).flatten (p ++ [r]) :=
      ((cc_insert_flatten_perm fit r acc).trans (h1.cons r)).trans
        (List.perm_append_singleton r p).symm
    have s2 : ∀ c ∈ cc_insert fit r acc, c ≠ [] := cc_insert_nonempty fit r acc h2
    have s3 : List.Pairwise (sep fit) (cc_insert fit r acc) :=
      cc_insert_pairwise hsym r acc h3
    have := ih (p ++ [r]) (cc_insert fit r acc) s1 s2 s3
    simpa [List.append_assoc] using this

/-- The facts about `seb_knows_best_classes` needed below. -/
theorem seb_facts {fit : StructureRecord → StructureRecord → Bool}
    (hsym : ∀ a b, fit a b = fit b a) (l : List StructureRecord) :
    List.Perm (seb_knows_best_classes fit l).flatten l ∧
    (∀ c ∈ seb_knows_best_classes fit l, c ≠ []) ∧
    List.Pairwise (sep fit) (seb_knows_best_classes fit l) := by
  have := seb_fold_inv hsym l [] [] (by simp) (by simp) (by simp)
  simpa [seb_knows_best_classes] using this

/-- Claim C7: for the same ordered bucket and the same deterministic
(symmetric) oracle, the greedy first-come-first-serve partition refines the
connected-components partition — every greedy class is contained in exactly
one component — and hence the greedy method produces at least as many
classes. -/
theorem c7_theorem (fit : StructureRecord → StructureRecord → Bool)
    (l : List StructureRecord) (hsym : ∀ a b, fit a b = fit b a)
    (hu : (l.map (fun r => r.uuid)).Nodup) :
    (∀ e ∈ first_come_first_serve fit l,
       ∃ c ∈ seb_knows_best_classes fit l,
         (∀ m ∈ e.members, m ∈ c) ∧
         ∀ c' ∈ seb_knows_best_classes fit l,
           (∃ m ∈ e.members, m ∈ c') → c' = c) ∧
    (seb_knows_best_classes fit l).length ≤
      (first_come_first_serve fit l).length := by
  have hnd : l.Nodup := List.Nodup.of_map _ hu
  obtain ⟨hGperm, hGcanon, hGadj⟩ := fcfs_facts fit l hu
  obtain ⟨hKperm, hKne, hKpair⟩ := seb_facts hsym l
  have hKnodup : (seb_knows_best_classes fit l).flatten.Nodup :=
    hKperm.nodup_iff.mpr hnd
  have hKdisj : List.Pairwise List.Disjoint (seb_knows_best_classes fit l) :=
    (List.nodup_flatten.mp hKnodup).2
  have hshared : ∀ c ∈ seb_knows_best_classes fit l,
      ∀ c' ∈ seb_knows_best_classes fit l, ∀ x, x ∈ c → x ∈ c' → c = c' := by
    intro c hc c' hc' x hx hx'
    by_contra hne
    exact List.Pairwise.forall (fun a b h => h.symm) hKdisj hc hc' hne hx hx'
  have hrefine : ∀ e ∈ first_come_first_serve fit l,
      ∃ c ∈ seb_knows_best_classes fit l,
        (∀ m ∈ e.members, m ∈ c) ∧
        ∀ c' ∈ seb_knows_best_classes fit l,
          (∃ m ∈ e.members, m ∈ c') → c' = c := by
    intro e he
    have hcanonl : e.canon ∈ l := hGperm.mem_iff.mp
      (List.mem_flatten.mpr ⟨e.members, List.mem_map_of_mem _ he, hGcanon e he⟩)
    obtain ⟨c, hcK, hcanonc⟩ := List.mem_flatten.mp (hKperm.mem_iff.mpr hcanonl)
    have hsub : ∀ m ∈ e.members, m ∈ c := by
      intro m hm
      have hml : m ∈ l := hGperm.mem_iff.mp
        (List.mem_flatten.mpr ⟨e.members, List.mem_map_of_mem _ he, hm⟩)
      obtain ⟨c', hc'K, hmc'⟩ := List.mem_flatten.mp (hKperm.mem_iff.mpr hml)
      rcases hGadj e he m hm with heq | hfit
      · exact heq ▸ hcanonc
      · by_cases hcc : c' = c
        · exact hcc ▸ hmc'
        · exfalso
          have hsep : sep fit c c' :=
            List.Pairwise.forall (sep_symm fit) hKpair hcK hc'K
              (fun h => hcc h.symm)
          have := (hsep e.canon hcanonc m hmc').2
          rw [hfit] at this
          cases this
    refine ⟨c, hcK, hsub, ?_⟩
    rintro c' hc'K ⟨m, hm, hmc'⟩
    exact hshared c' hc'K c hcK m hmc' (hsub m hm)
  refine ⟨hrefine, ?_⟩
  have hchoose : ∀ i : Fin (seb_knows_best_classes fit l).length,
      ∃ j : Fin (first_come_first_serve fit l).length,
        ((first_come_first_serve fit l).get j).canon ∈
          (seb_knows_best_classes fit l).get i := by
    intro i
    have hKi : (seb_knows_best_classes fit l).get i ∈ seb_knows_best_classes fit l :=
      List.get_mem _ _ i.isLt
    obtain ⟨x, hx⟩ := List.exists_mem_of_ne_nil _ (hKne _ hKi)
    have hxl : x ∈ l := hKperm.mem_iff.mp (List.mem_flatten.mpr ⟨_, hKi, hx⟩)
    obtain ⟨ms, hms, hxm⟩ := List.mem_flatten.mp (hGperm.mem_iff.mpr hxl)
    obtain ⟨e, heG, hmse⟩ := List.mem_map.mp hms
    obtain ⟨j, hj⟩ := List.mem_iff_get.mp heG
    obtain ⟨c, hcK, hsub, _⟩ := hrefine e heG
    have hxc : x ∈ c := hsub x (hmse ▸ hxm)
    have hceq : c = (seb_knows_best_classes fit l).get i :=
      hshared c hcK _ hKi x hxc hx
    exact ⟨j, by rw [hj]; exact hceq ▸ hsub e.canon (hGcanon e heG)⟩
  choose f hf using hchoose
  have hinj : Function.Injective f := by
    intro i₁ i₂ heq
    by_contra hne
    have h1 := hf i₁
    have h2 := hf i₂
    rw [heq] at h1
    have hd := List.pairwise_iff_get.mp hKdisj
    rcases lt_or_gt_of_ne hne with hlt | hlt
    · exact hd i₁ i₂ hlt h1 h2
    · exact hd i₂ i₁ hlt h2 h1
  calc (seb_knows_best_classes fit l).length
      = Fintype.card (Fin (seb_knows_best_classes fit l).length) :=
        (Fintype.card_fin _).symm
    _ ≤ Fintype.card (Fin (first_come_first_serve fit l).length) :=
        Fintype.card_le_of_injective f hinj
    _ = (first_come_first_serve fit l).length := Fintype.card_fin _

/-- A concrete symmetric matcher judging records by site count. -/
def fitSites (a b : StructureRecord) : Bool := a.nsites = b.nsites

/-- Witness for C7: the refinement and class-count bound hold on a concrete
bucket with a concrete symmetric oracle. -/
theorem c7_witness :
    (∀ a b, fitSites a b = fitSites b a) ∧
    (([recA, recB, recC].map (fun r => r.uuid)).Nodup) ∧
    (seb_knows_best_classes fitSites [recA, recB, recC]).length ≤
      (first_come_first_serve fitSites [recA, recB, recC]).length := by
  have hsym : ∀ a b, fitSites a b = fitSites b a := by
    intro a b
    exact decide_eq_decide.mpr eq_comm
  exact ⟨hsym, by decide,
    (c7_theorem fitSites [recA, recB, recC] hsym (by decide)).2⟩

/-! ## Claim C10 — the groups touched by `run select` -/

/-- Claim C10: the `select` command always scans the membership of the
fixed group `global/uniq`, independently of its `unique_group` argument,
and applies the found replacements to the group named by that argument. -/
theorem c10_theorem :
    ∀ (store : String → List StructureRecord) (g g' : String),
      (select_command store g).scanned = store "global/uniq" ∧
      (select_command store g).scanned = (select_command store g').scanned ∧
      (select_command store g).applied_group = g :=
  fun _ _ _ => ⟨rfl, rfl, rfl⟩

/-- A concrete matcher judging records by bucket key; reflexive and
symmetric. -/
def fitFormula (a b : StructureRecord) : Bool := a.formula = b.formula

/-! ## Infrastructure for the idempotence analysis of `run uniq` -/

theorem lexLe_refl (a : List Char) : lexLe a a = true := by
  induction a with
  | nil => rfl
  | cons x xs ih => simp [lexLe, ih]

theorem strLe_refl (a : String) : strLe a a = true := lexLe_refl a.data

theorem recLe_refl (a : StructureRecord) : recLe a a :=
  Or.inr ⟨rfl, strLe_refl a.uuid⟩

/-- Folding set unions over a member list only depends on the set of
members. -/
theorem foldl_union_biUnion (g : StructureRecord → Finset String) :
    ∀ (l : List StructureRecord) (d : Finset String),
      l.foldl (fun acc m => acc ∪ g m) d = d ∪ l.toFinset.biUnion g := by
  intro l
  induction l with
  | nil => intro d; simp
  | cons m rest ih =>
    intro d
    rw [List.foldl_cons, ih, List.toFinset_cons, Finset.biUnion_insert]
    ext x
    simp only [Finset.mem_union]
    tauto

/-- The data of a unique entry that the reconciliation phases consume: its
canonical record and the set of its members. -/
def entryData (e : UniqEntry) : StructureRecord × Finset StructureRecord :=
  (e.canon, e.members.toFinset)

theorem map_entryData_forall₂ :
    ∀ {acc₁ acc₂ : List UniqEntry},
      acc₁.map entryData = acc₂.map entryData →
      List.Forall₂ (fun e₁ e₂ => entryData e₁ = entryData e₂) acc₁ acc₂ := by
  intro acc₁
  induction acc₁ with
  | nil =>
    intro acc₂ h
    cases acc₂ with
    | nil => exact List.Forall₂.nil
    | cons e es => simp at h
  | cons e₁ es₁ ih =>
    intro acc₂ h
    cases acc₂ with
    | nil => simp at h
    | cons e₂ es₂ =>
      simp only [List.map_cons, List.cons.injEq] at h
      exact List.Forall₂.cons h.1 (ih h.2)

theorem entryData_canon {e₁ e₂ : UniqEntry} (h : entryData e₁ = entryData e₂) :
    e₁.canon = e₂.canon := congrArg Prod.fst h

theorem entryData_members {e₁ e₂ : UniqEntry} (h : entryData e₁ = entryData e₂) :
    e₁.members.toFinset = e₂.members.toFinset := congrArg Prod.snd h

/-- `fcfsScan` is determined, up to `entryData`, by the `entryData` of the
accumulator. -/
theorem fcfsScan_congr (fit : StructureRecord → StructureRecord → Bool)
    (r : StructureRecord) :
    ∀ {acc₁ acc₂ : List UniqEntry}, acc₁.map entryData = acc₂.map entryData →
      (fcfsScan fit r acc₁ = none ∧ fcfsScan fit r acc₂ = none) ∨
      (∃ a₁ a₂, fcfsScan fit r acc₁ = some a₁ ∧ fcfsScan fit r acc₂ = some a₂ ∧
        a₁.map entryData = a₂.map entryData) := by
  intro acc₁
  induction acc₁ with
  | nil =>
    intro acc₂ h
    cases acc₂ with
    | nil => exact Or.inl ⟨rfl, rfl⟩
    | cons e es => simp at h
  | cons e₁ es₁ ih =>
    intro acc₂ h
    cases acc₂ with
    | nil => simp at h
    | cons e₂ es₂ =>
      simp only [List.map_cons, List.cons.injEq] at h
      have hc : e₁.canon = e₂.canon := entryData_canon h.1
      simp only [fcfsScan, hc]
      by_cases hf : fit r e₂.canon
      · rw [if_pos hf, if_pos hf]
        refine Or.inr ⟨_, _, rfl, rfl, ?_⟩
        simp only [List.map_cons, List.cons.injEq]
        refine ⟨?_, h.2⟩
        simp only [entryData, hc, List.toFinset_append, entryData_members h.1]
      · rw [if_neg hf, if_neg hf]
        rcases ih h.2 with ⟨h1, h2⟩ | ⟨a₁, a₂, h1, h2, h3⟩
        · rw [h1, h2]
          exact Or.inl ⟨rfl, rfl⟩
        · rw [h1, h2]
          refine Or.inr ⟨_, _, rfl, rfl, ?_⟩
          simp only [Option.map_some', List.map_cons, List.cons.injEq]
          exact ⟨h.1, h3⟩

/-- `fcfsNew` is determined, up to `entryData`, by the `entryData` of the
accumulator. -/
theorem fcfsNew_congr (r : StructureRecord) :
    ∀ {acc₁ acc₂ : List UniqEntry}, acc₁.map entryData = acc₂.map entryData →
      (fcfsNew r acc₁).map entryData = (fcfsNew r acc₂).map entryData := by
  intro acc₁
  induction acc₁ with
  | nil =>
    intro acc₂ h
    cases acc₂ with
    | nil => rfl
    | cons e es => simp at h
  | cons e₁ es₁ ih =>
    intro acc₂ h
    cases acc₂ with
    | nil => simp at h
    | cons e₂ es₂ =>
      simp only [List.map_cons, List.cons.injEq] at h
      have hc : e₁.canon = e₂.canon := entryData_canon h.1
      simp only [fcfsNew, hc]
      by_cases hu : e₂.canon.uuid = r.uuid
      · rw [if_pos hu, if_pos hu]
        simpa using h.2
      · rw [if_neg hu, if_neg hu]
        simp only [List.map_cons, List.cons.injEq]
        exact ⟨h.1, ih h.2⟩

/-- `fcfsVisit` is determined, up to `entryData`, by the `entryData` of the
accumulator. -/
theorem fcfsVisit_congr (fit : StructureRecord → StructureRecord → Bool)
    (r : StructureRecord) {acc₁ acc₂ : List UniqEntry}
    (h : acc₁.map entryData = acc₂.map entryData) :
    (fcfsVisit fit acc₁ r).map entryData = (fcfsVisit fit acc₂ r).map entryData := by
  unfold fcfsVisit
  rcases fcfsScan_congr fit r h with ⟨h1, h2⟩ | ⟨a₁, a₂, h1, h2, h3⟩
  · rw [h1, h2]
    exact fcfsNew_congr r h
  · rw [h1, h2]
    exact h3

theorem fcfsNew_mem {r : StructureRecord} :
    ∀ {acc : List UniqEntry} {e : UniqEntry}, e ∈ fcfsNew r acc →
      e ∈ acc ∨ e = ⟨r, [r]⟩ := by
  intro acc
  induction acc with
  | nil =>
    intro e he
    simp only [fcfsNew] at he
    exact Or.inr (by simpa using he)
  | cons e0 es ih =>
    intro e he
    simp only [fcfsNew] at he
    by_cases hu : e0.canon.uuid = r.uuid
    · rw [if_pos hu] at he
      rcases List.mem_cons.mp he with h' | h'
      · exact Or.inr h'
      · exact Or.inl (List.mem_cons_of_mem _ h')
    · rw [if_neg hu] at he
      rcases List.mem_cons.mp he with h' | h'
      · exact Or.inl (h' ▸ List.mem_cons_self _ _)
      · rcases ih h' with h'' | h''
        · exact Or.inl (List.mem_cons_of_mem _ h'')
        · exact Or.inr h''

/-- One step of the greedy fold keeps members inside the processed prefix
and each canonical among its own members. -/
theorem fcfsVisit_step_facts (fit : StructureRecord → StructureRecord → Bool)
    (r : StructureRecord) (p : List StructureRecord) {acc : List UniqEntry}
    (hsub : ∀ e ∈ acc, ∀ m ∈ e.members, m ∈ p)
    (hcanon : ∀ e ∈ acc, e.canon ∈ e.members) :
    (∀ e ∈ fcfsVisit fit acc r, ∀ m ∈ e.members, m ∈ p ++ [r]) ∧
    (∀ e ∈ fcfsVisit fit acc r, e.canon ∈ e.members) := by
  have hp : ∀ m, m ∈ p → m ∈ p ++ [r] := fun m hm => List.mem_append.mpr (Or.inl hm)
  unfold fcfsVisit
  cases hscan : fcfsScan fit r acc with
  | some acc' =>
    obtain ⟨pre, e, post, hsplit, hacc', hfit, -⟩ := fcfsScan_some hscan
    subst hsplit; subst hacc'
    constructor
    · intro e' he' m hm
      rcases List.mem_append.mp he' with h' | h'
      · exact hp m (hsub e' (List.mem_append.mpr (Or.inl h')) m hm)
      · rcases List.mem_cons.mp h' with h'' | h''
        · subst h''
          simp only at hm
          rcases List.mem_append.mp hm with h4 | h4
          · exact hp m (hsub e (by simp) m h4)
          · simp only [List.mem_singleton] at h4
            subst h4
            exact List.mem_append.mpr (Or.inr (by simp))
        · exact hp m (hsub e' (by simp [h'']) m hm)
    · intro e' he'
      rcases List.mem_append.mp he' with h' | h'
      · exact hcanon e' (List.mem_append.mpr (Or.inl h'))
      · rcases List.mem_cons.mp h' with h'' | h''
        · subst h''
          exact List.mem_append.mpr (Or.inl (hcanon e (by simp)))
        · exact hcanon e' (by simp [h''])
  | none =>
    constructor
    · intro e' he' m hm
      rcases fcfsNew_mem he' with h' | h'
      · exact hp m (hsub e' h' m hm)
      · subst h'
        simp only [List.mem_singleton] at hm
        subst hm
        exact List.mem_append.mpr (Or.inr (by simp))
    · intro e' he'
      rcases fcfsNew_mem he' with h' | h'
      · exact hcanon e' h'
      · subst h'; simp

/-- Processing a record a second time, right after it was processed, does
not change the `entryData` of the accumulator (the record is re-absorbed by
the first entry that matched it, or by its own fresh entry). -/
theorem fcfsVisit_absorb {fit : StructureRecord → StructureRecord → Bool}
    {r : StructureRecord} (hr : fit r r = true) {acc : List UniqEntry}
    (hfresh : ∀ e ∈ acc, e.canon.uuid ≠ r.uuid) :
    (fcfsVisit fit (fcfsVisit fit acc r) r).map entryData =
      (fcfsVisit fit acc r).map entryData := by
  have habsorb : ∀ (pre : List UniqEntry) (e : UniqEntry) (post : List UniqEntry),
      (∀ e' ∈ pre, fit r e'.canon = false) → fit r e.canon = true →
      r ∈ e.members →
      (fcfsVisit fit (pre ++ e :: post) r).map entryData =
        (pre ++ e :: post).map entryData := by
    intro pre e post hpre hf hrm
    have hscan := fcfsScan_prefix pre e post hpre hf
    unfold fcfsVisit
    rw [hscan]
    simp only [List.map_append, List.map_cons]
    congr 1
    congr 1
    simp only [entryData, List.toFinset_append]
    have hsubr : ([r] : List StructureRecord).toFinset ⊆ e.members.toFinset := by
      intro x hx
      simp only [List.toFinset_cons, List.toFinset_nil, insert_emptyc_eq,
        Finset.mem_singleton] at hx
      subst hx
      exact List.mem_toFinset.mpr hrm
    rw [Finset.union_eq_left.mpr hsubr]
  cases hscan : fcfsScan fit r acc with
  | some acc' =>
    have hvisit : fcfsVisit fit acc r = acc' := by
      unfold fcfsVisit; rw [hscan]
    rw [hvisit]
    obtain ⟨pre, e, post, hsplit, hacc', hfit, hpre⟩ := fcfsScan_some hscan
    subst hsplit; subst hacc'
    exact habsorb pre _ post hpre hfit (by simp)
  | none =>
    have hvisit : fcfsVisit fit acc r = fcfsNew r acc := by
      unfold fcfsVisit; rw [hscan]
    rw [hvisit, fcfsNew_fresh hfresh]
    have hall := fcfsScan_none hscan
    have := habsorb acc ⟨r, [r]⟩ [] hall hr (by simp)
    simpa using this

theorem forall₂_mem_left {α : Type} {R : α → α → Prop} :
    ∀ {l₁ l₂ : List α}, List.Forall₂ R l₁ l₂ → ∀ a ∈ l₁, ∃ b ∈ l₂, R a b := by
  intro l₁
  induction l₁ with
  | nil => intro l₂ _ a ha; cases ha
  | cons x xs ih =>
    intro l₂ h a ha
    cases h with
    | cons hx hxs =>
      rcases List.mem_cons.mp ha with h' | h'
      · exact ⟨_, List.mem_cons_self _ _, h' ▸ hx⟩
      · obtain ⟨b, hb, hr⟩ := ih hxs a h'
        exact ⟨b, List.mem_cons_of_mem _ hb, hr⟩

/-- The greedy fold absorbs late duplicates: folding over a record list in
which some records are processed twice in a row gives, up to `entryData`,
the same accumulator as folding over the record list itself. -/
theorem fcfs_dup_fold {fit : StructureRecord → StructureRecord → Bool}
    (pD : StructureRecord → Bool)
    (hrefl : ∀ r, pD r = true → fit r r = true) :
    ∀ (l p : List StructureRecord) (acc₁ acc₂ : List UniqEntry),
      ((p ++ l).map (fun r => r.uuid)).Nodup →
      acc₁.map entryData = acc₂.map entryData →
      (∀ e ∈ acc₂, ∀ m ∈ e.members, m ∈ p) →
      (∀ e ∈ acc₂, e.canon ∈ e.members) →
      ((l.flatMap (fun r => if pD r then [r, r] else [r])).foldl
          (fcfsVisit fit) acc₁).map entryData
        = (l.foldl (fcfsVisit fit) acc₂).map entryData := by
  intro l
  induction l with
  | nil =>
    intro p acc₁ acc₂ _ hEq _ _
    simpa using hEq
  | cons r l' ih =>
    intro p acc₁ acc₂ hu hEq hsub hcanon
    have hfresh₂ : ∀ e ∈ acc₂, e.canon.uuid ≠ r.uuid := by
      intro e he heq
      have hc : e.canon ∈ p := hsub e he e.canon (hcanon e he)
      rw [List.map_append, List.nodup_append] at hu
      exact hu.2.2 (List.mem_map_of_mem _ hc)
        (heq ▸ (by simp : r.uuid ∈ (r :: l').map (fun s => s.uuid)))
    have hfresh₁ : ∀ e ∈ acc₁, e.canon.uuid ≠ r.uuid := by
      intro e he
      obtain ⟨e₂, he₂, hr⟩ := forall₂_mem_left (map_entryData_forall₂ hEq) e he
      rw [entryData_canon hr]
      exact hfresh₂ e₂ he₂
    have hco : (fcfsVisit fit acc₁ r).map entryData =
        (fcfsVisit fit acc₂ r).map entryData := fcfsVisit_congr fit r hEq
    have hstep := fcfsVisit_step_facts fit r p hsub hcanon
    have hu' : (((p ++ [r]) ++ l').map (fun s => s.uuid)).Nodup := by
      simpa [List.append_assoc] using hu
    by_cases hD : pD r
    · have habs : (fcfsVisit fit (fcfsVisit fit acc₁ r) r).map entryData =
          (fcfsVisit fit acc₁ r).map entryData :=
        fcfsVisit_absorb (hrefl r hD) hfresh₁
      have hEq' : (fcfsVisit fit (fcfsVisit fit acc₁ r) r).map entryData =
          (fcfsVisit fit acc₂ r).map entryData := habs.trans hco
      have := ih (p ++ [r]) (fcfsVisit fit (fcfsVisit fit acc₁ r) r)
        (fcfsVisit fit acc₂ r) hu' hEq' hstep.1 hstep.2
      simpa [hD, List.foldl_cons] using this
    · have := ih (p ++ [r]) (fcfsVisit fit acc₁ r) (fcfsVisit fit acc₂ r)
        hu' hco hstep.1 hstep.2
      simpa [hD, List.foldl_cons] using this

/-- Two sorted lists of records with the same multiset and uuid-injective
content are equal (Python's `sorted` output is determined by the multiset
when all ties are identical records). -/
theorem sorted_perm_eq :
    ∀ {l₁ l₂ : List StructureRecord}, l₁.Sorted recLe → l₂.Sorted recLe →
      List.Perm l₁ l₂ →
      (∀ a ∈ l₁, ∀ b ∈ l₁, a.uuid = b.uuid → a = b) → l₁ = l₂ := by
  intro l₁
  induction l₁ with
  | nil =>
    intro l₂ _ _ hp _
    exact hp.symm.eq_nil.symm
  | cons a l₁' ih =>
    intro l₂ hs₁ hs₂ hp hinj
    cases l₂ with
    | nil => exact absurd hp.eq_nil (by simp)
    | cons b l₂' =>
      obtain ⟨ha₁, hall₁⟩ := List.pairwise_cons.mp hs₁
      obtain ⟨hb₂, hall₂⟩ := List.pairwise_cons.mp hs₂
      have hab : recLe a b := by
        have hb : b ∈ a :: l₁' := hp.symm.subset (List.mem_cons_self b l₂')
        rcases List.mem_cons.mp hb with h' | h'
        · exact h' ▸ recLe_refl a
        · exact ha₁ b h'
      have hba : recLe b a := by
        have ha : a ∈ b :: l₂' := hp.subset (List.mem_cons_self a l₁')
        rcases List.mem_cons.mp ha with h' | h'
        · exact h' ▸ recLe_refl b
        · exact hb₂ a h'
      have hb₁ : b ∈ a :: l₁' := hp.symm.subset (List.mem_cons_self b l₂')
      have hab' : a = b := hinj a (List.mem_cons_self a l₁') b hb₁
        (recLe_antisymm_uuid hab hba)
      subst hab'
      have hp' : List.Perm l₁' l₂' := hp.cons_inv
      have := ih hall₁ hall₂ hp'
        (fun x hx y hy => hinj x (List.mem_cons_of_mem a hx) y (List.mem_cons_of_mem a hy))
      rw [this]

/-- Duplicating the selected records keeps every record present. -/
theorem mem_flatMap_dup (pD : StructureRecord → Bool) (l : List StructureRecord)
    (x : StructureRecord) :
    x ∈ l.flatMap (fun r => if pD r then [r, r] else [r]) ↔ x ∈ l := by
  simp only [List.mem_flatMap]
  constructor
  · rintro ⟨r, hr, hx⟩
    by_cases hD : pD r
    · rw [if_pos hD] at hx
      have : x = r := by
        rcases List.mem_cons.mp hx with h | h
        · exact h
        · simpa using h
      exact this ▸ hr
    · rw [if_neg hD] at hx
      have : x = r := by simpa using hx
      exact this ▸ hr
  · intro hx
    refine ⟨x, hx, ?_⟩
    by_cases hD : pD x
    · rw [if_pos hD]; simp
    · rw [if_neg hD]; simp

/-- Duplicating the selected records is, as a multiset, appending one extra
copy of each selected record. -/
theorem flatMap_dup_perm (pD : StructureRecord → Bool) :
    ∀ l : List StructureRecord,
      List.Perm (l.flatMap (fun r => if pD r then [r, r] else [r]))
        (l ++ l.filter pD) := by
  intro l
  induction l with
  | nil => simp
  | cons r l ih =>
    simp only [List.flatMap_cons, List.filter_cons]
    by_cases hD : pD r
    · rw [if_pos hD, if_pos hD]
      have h1 : List.Perm ([r, r] ++ l.flatMap (fun r => if pD r then [r, r] else [r]))
          ([r, r] ++ (l ++ l.filter pD)) := ih.append_left [r, r]
      refine h1.trans ?_
      simp only [List.cons_append, List.nil_append]
      exact List.Perm.cons r (List.perm_middle).symm
    · rw [if_neg hD, if_neg hD]
      simpa using ih.cons r

/-- Duplicating records of a sorted list keeps it sorted. -/
theorem flatMap_dup_sorted (pD : StructureRecord → Bool) :
    ∀ l : List StructureRecord, l.Sorted recLe →
      (l.flatMap (fun r => if pD r then [r, r] else [r])).Sorted recLe := by
  intro l
  induction l with
  | nil => intro _; simp
  | cons r l ih =>
    intro hs
    obtain ⟨hhead, htail⟩ := List.pairwise_cons.mp hs
    simp only [List.flatMap_cons]
    refine List.pairwise_append.mpr ⟨?_, ih htail, ?_⟩
    · by_cases hD : pD r
      · rw [if_pos hD]
        exact List.pairwise_cons.mpr ⟨fun x hx => by
          have : x = r := by simpa using hx
          exact this ▸ recLe_refl r, List.pairwise_singleton _ _⟩
      · rw [if_neg hD]
        exact List.pairwise_singleton _ _
    · intro x hx y hy
      have hxr : x = r := by
        by_cases hD : pD r
        · rw [if_pos hD] at hx
          rcases List.mem_cons.mp hx with h | h
          · exact h
          · simpa using h
        · rw [if_neg hD] at hx
          simpa using hx
      have hyl : y ∈ l := (mem_flatMap_dup pD l y).mp hy
      exact hxr ▸ hhead y hyl

/-- Splitting a list into its fibres over a covering, duplicate-free key
list is a permutation of the list. -/
theorem flatMap_filter_perm (f : StructureRecord → String) :
    ∀ (keys : List String) (l : List StructureRecord), keys.Nodup →
      (∀ x ∈ l, f x ∈ keys) →
      List.Perm (keys.flatMap (fun k => l.filter (fun x => f x = k))) l := by
  intro keys
  induction keys with
  | nil =>
    intro l _ hcover
    cases l with
    | nil => simp
    | cons x xs => exact absurd (hcover x (List.mem_cons_self x xs)) (List.not_mem_nil _)
  | cons k ks ih =>
    intro l hnd hcover
    obtain ⟨hk, hks⟩ := List.pairwise_cons.mp hnd
    simp only [List.flatMap_cons]
    have hsplit : ∀ k' ∈ ks,
        l.filter (fun x => f x = k') =
          (l.filter (fun x => !(decide (f x = k)))).filter (fun x => f x = k') := by
      intro k' hk'
      rw [List.filter_filter]
      refine (List.filter_congr ?_).symm
      intro x _
      by_cases hx : f x = k'
      · have hkk : ¬ (k' = k) := fun hcon => hk k' hk' hcon.symm
        have hfk : ¬ (f x = k) := by rw [hx]; exact hkk
        simp [hx, hfk, hkk]
      · simp [hx]
    have hmap : ks.flatMap (fun k' => l.filter (fun x => f x = k')) =
        ks.flatMap (fun k' =>
          (l.filter (fun x => !(decide (f x = k)))).filter (fun x => f x = k')) := by
      unfold List.flatMap
      rw [List.map_congr_left hsplit]
    rw [hmap]
    have hcover' : ∀ x ∈ l.filter (fun x => !(decide (f x = k))), f x ∈ ks := by
      intro x hx
      have hxl : x ∈ l := List.mem_of_mem_filter hx
      have hxk : ¬ (f x = k) := by
        have := List.of_mem_filter hx
        simpa using this
      rcases List.mem_cons.mp (hcover x hxl) with h | h
      · exact absurd h hxk
      · exact h
    have hih := ih (l.filter (fun x => !(decide (f x = k)))) hks hcover'
    exact (hih.append_left _).trans (List.filter_append_perm _ l)

/-- Pointwise permutations of a list of lists flatten to a permutation. -/
theorem forall₂_perm_flatten {α : Type} :
    ∀ {L₁ L₂ : List (List α)}, List.Forall₂ List.Perm L₁ L₂ →
      List.Perm L₁.flatten L₂.flatten := by
  intro L₁
  induction L₁ with
  | nil => intro L₂ h; cases h; rfl
  | cons x xs ih =>
    intro L₂ h
    cases h with
    | cons hx hxs =>
      simp only [List.flatten_cons]
      exact hx.append (ih hxs)

theorem sourceEntries_sublist (S : List StructureRecord) :
    (sourceEntries S).Sublist S :=
  (List.filter_sublist _).trans (List.filter_sublist S)

theorem targetEntries_sublist (S T : List StructureRecord) :
    (targetEntries S T).Sublist T :=
  ((List.filter_sublist _).trans (List.filter_sublist _)).trans (List.filter_sublist T)

theorem mem_sourceEntries_facts {S : List StructureRecord} {r : StructureRecord}
    (h : r ∈ sourceEntries S) :
    r ∈ S ∧ queryFilter r = true ∧ (!r.sortFails) = true ∧
      r.formula ∈ sourceKeys S := by
  have h2 : r ∈ (S.filter queryFilter).filter (fun r => !r.sortFails) := h
  have h1 : r ∈ S.filter queryFilter := List.mem_of_mem_filter h2
  have h3 : (!r.sortFails) = true := (List.mem_filter.mp h2).2
  exact ⟨List.mem_of_mem_filter h1, (List.mem_filter.mp h1).2, h3,
    List.mem_map_of_mem _ h⟩

/-- Appending records that already qualify as source entries to the target
group extends the target entries by exactly those records. -/
theorem targetEntries_append (S T₀ C : List StructureRecord)
    (hC : ∀ c ∈ C, c ∈ sourceEntries S) :
    targetEntries S (T₀ ++ C) = targetEntries S T₀ ++ C := by
  unfold targetEntries
  rw [List.filter_append, List.filter_append, List.filter_append]
  congr 1
  have h1 : C.filter queryFilter = C := by
    rw [List.filter_eq_self]
    intro c hc
    exact (mem_sourceEntries_facts (hC c hc)).2.1
  rw [h1]
  have h2 : C.filter (fun r => !r.sortFails) = C := by
    rw [List.filter_eq_self]
    intro c hc
    exact (mem_sourceEntries_facts (hC c hc)).2.2.1
  rw [h2]
  rw [List.filter_eq_self]
  intro c hc
  simpa using (mem_sourceEntries_facts (hC c hc)).2.2.2

/-- The second run's bucket is the first run's bucket with the added
canonicals duplicated in place. -/
theorem bucketRecords_append_dup (S T₀ C : List StructureRecord) (k : String)
    (hu : ((S ++ T₀).map (fun r => r.uuid)).Nodup)
    (hC : ∀ c ∈ C, c ∈ sourceEntries S)
    (hCnd : (C.map (fun r => r.uuid)).Nodup) :
    bucketRecords S (T₀ ++ C) k =
      (bucketRecords S T₀ k).flatMap
        (fun r => if decide (r ∈ C) then [r, r] else [r]) := by
  have hinj : ∀ x ∈ S ++ T₀, ∀ y ∈ S ++ T₀, x.uuid = y.uuid → x = y := by
    intro x hx y hy hxy
    exact List.inj_on_of_nodup_map hu hx hy hxy
  have hST : ∀ x ∈ S, ∀ y ∈ T₀, x.uuid ≠ y.uuid := by
    intro x hx y hy heq
    rw [List.map_append, List.nodup_append] at hu
    exact hu.2.2 (List.mem_map_of_mem _ hx) (heq ▸ List.mem_map_of_mem _ hy)
  set srcK := (sourceEntries S).filter (fun r => r.formula = k) with hsrcK
  set tgtK := (targetEntries S T₀).filter (fun r => r.formula = k) with htgtK
  set CK := C.filter (fun r => r.formula = k) with hCK
  have hLHS : bucketRecords S (T₀ ++ C) k =
      sortBucket (srcK ++ (tgtK ++ CK)) := by
    unfold bucketRecords
    rw [targetEntries_append S T₀ C hC, List.filter_append]
  have hl₁ : bucketRecords S T₀ k = sortBucket (srcK ++ tgtK) := rfl
  -- collect membership facts
  have hsrcK_sub : srcK.Sublist S :=
    (List.filter_sublist _).trans (sourceEntries_sublist S)
  have htgtK_sub : tgtK.Sublist T₀ :=
    (List.filter_sublist _).trans (targetEntries_sublist S T₀)
  have hCsub : ∀ c ∈ C, c ∈ S := fun c hc => (mem_sourceEntries_facts (hC c hc)).1
  have hinput_mem : ∀ x ∈ srcK ++ tgtK, x ∈ S ++ T₀ := by
    intro x hx
    rcases List.mem_append.mp hx with h | h
    · exact List.mem_append.mpr (Or.inl (hsrcK_sub.mem h))
    · exact List.mem_append.mpr (Or.inr (htgtK_sub.mem h))
  have hl₁_perm : List.Perm (bucketRecords S T₀ k) (srcK ++ tgtK) := by
    rw [hl₁]
    exact List.perm_insertionSort recLe _
  have hl₁_mem : ∀ x ∈ bucketRecords S T₀ k, x ∈ S ++ T₀ := by
    intro x hx
    exact hinput_mem x (hl₁_perm.subset hx)
  -- the duplicated-list form
  have hsorted₁ : (bucketRecords S T₀ k).Sorted recLe := by
    rw [hl₁]
    exact List.sorted_insertionSort recLe _
  have hsortedRHS : ((bucketRecords S T₀ k).flatMap
      (fun r => if decide (r ∈ C) then [r, r] else [r])).Sorted recLe :=
    flatMap_dup_sorted _ _ hsorted₁
  have hsortedLHS : (bucketRecords S (T₀ ++ C) k).Sorted recLe := by
    rw [hLHS]
    exact List.sorted_insertionSort recLe _
  -- permutation between the two sides
  have hCKnodup : CK.Nodup :=
    (List.Nodup.of_map _ hCnd).sublist (List.filter_sublist C)
  have hfilterC : List.Perm ((bucketRecords S T₀ k).filter (fun r => decide (r ∈ C))) CK := by
    have hfp : List.Perm ((bucketRecords S T₀ k).filter (fun r => decide (r ∈ C)))
        ((srcK ++ tgtK).filter (fun r => decide (r ∈ C))) := hl₁_perm.filter _
    have htgtnil : tgtK.filter (fun r => decide (r ∈ C)) = [] := by
      rw [List.filter_eq_nil_iff]
      intro t ht hcon
      have htC : t ∈ C := by simpa using hcon
      have htT : t ∈ T₀ := htgtK_sub.mem ht
      exact hST t (hCsub t htC) t htT rfl
    have hsrcCK : List.Perm (srcK.filter (fun r => decide (r ∈ C))) CK := by
      have hnd1 : (srcK.filter (fun r => decide (r ∈ C))).Nodup := by
        have hSnd : S.Nodup := by
          rw [List.map_append, List.nodup_append] at hu
          exact List.Nodup.of_map _ hu.1
        exact (hSnd.sublist hsrcK_sub).sublist (List.filter_sublist _)
      refine List.perm_of_nodup_nodup_toFinset_eq hnd1 hCKnodup ?_
      ext x
      simp only [List.mem_toFinset, List.mem_filter, hCK, decide_eq_true_eq]
      constructor
      · rintro ⟨hx1, hx2⟩
        exact ⟨hx2, by simpa using List.of_mem_filter hx1⟩
      · rintro ⟨hx1, hx2⟩
        have hxs : x ∈ sourceEntries S := hC x hx1
        exact ⟨List.mem_filter.mpr ⟨hxs, by simpa using hx2⟩, hx1⟩
    refine hfp.trans ?_
    rw [List.filter_append, htgtnil, List.append_nil]
    exact hsrcCK
  have hperm : List.Perm (bucketRecords S (T₀ ++ C) k)
      ((bucketRecords S T₀ k).flatMap
        (fun r => if decide (r ∈ C) then [r, r] else [r])) := by
    have h1 : List.Perm (bucketRecords S (T₀ ++ C) k) (srcK ++ (tgtK ++ CK)) := by
      rw [hLHS]
      exact List.perm_insertionSort recLe _
    have h2 : List.Perm ((bucketRecords S T₀ k).flatMap
          (fun r => if decide (r ∈ C) then [r, r] else [r]))
        (bucketRecords S T₀ k ++
          (bucketRecords S T₀ k).filter (fun r => decide (r ∈ C))) :=
      flatMap_dup_perm _ _
    refine h1.trans (List.Perm.symm ?_)
    refine h2.trans ?_
    have h3 : List.Perm
        (bucketRecords S T₀ k ++
          (bucketRecords S T₀ k).filter (fun r => decide (r ∈ C)))
        ((srcK ++ tgtK) ++ CK) := hl₁_perm.append hfilterC
    refine h3.trans ?_
    rw [List.append_assoc]
  refine sorted_perm_eq hsortedLHS hsortedRHS hperm ?_
  have hLHS_mem : ∀ x ∈ bucketRecords S (T₀ ++ C) k, x ∈ S ++ T₀ := by
    intro x hx
    have hx' : x ∈ srcK ++ (tgtK ++ CK) := by
      have h1 : List.Perm (bucketRecords S (T₀ ++ C) k) (srcK ++ (tgtK ++ CK)) := by
        rw [hLHS]
        exact List.perm_insertionSort recLe _
      exact h1.subset hx
    rcases List.mem_append.mp hx' with h | h
    · exact List.mem_append.mpr (Or.inl (hsrcK_sub.mem h))
    · rcases List.mem_append.mp h with h' | h'
      · exact List.mem_append.mpr (Or.inr (htgtK_sub.mem h'))
      · exact List.mem_append.mpr
          (Or.inl (hCsub _ (List.mem_of_mem_filter h')))
  intro a ha b hb hab
  exact hinj a (hLHS_mem a ha) b (hLHS_mem b hb) hab

theorem bucket_map_uuid_nodup (S T₀ : List StructureRecord) (k : String)
    (hu : ((S ++ T₀).map (fun r => r.uuid)).Nodup) :
    ((bucketRecords S T₀ k).map (fun r => r.uuid)).Nodup := by
  have hperm : List.Perm (bucketRecords S T₀ k)
      ((sourceEntries S).filter (fun r => r.formula = k)
        ++ (targetEntries S T₀).filter (fun r => r.formula = k)) :=
    List.perm_insertionSort recLe _
  refine ((hperm.map (fun r => r.uuid)).nodup_iff).mpr ?_
  rw [List.map_append, List.nodup_append]
  rw [List.map_append, List.nodup_append] at hu
  have hssub : (((sourceEntries S).filter (fun r => r.formula = k)).map
      (fun r => r.uuid)).Sublist (S.map (fun r => r.uuid)) :=
    List.Sublist.map _ ((List.filter_sublist _).trans (sourceEntries_sublist S))
  have htsub : (((targetEntries S T₀).filter (fun r => r.formula = k)).map
      (fun r => r.uuid)).Sublist (T₀.map (fun r => r.uuid)) :=
    List.Sublist.map _ ((List.filter_sublist _).trans (targetEntries_sublist S T₀))
  exact ⟨hu.1.sublist hssub, hu.2.1.sublist htsub,
    fun a ha hb => hu.2.2 (hssub.mem ha) (htsub.mem hb)⟩

theorem sortedKeys_nodup (S : List StructureRecord) : (sortedKeys S).Nodup :=
  ((List.perm_insertionSort strLeP _).nodup_iff).mpr (List.nodup_dedup _)

theorem mem_sortedKeys {S : List StructureRecord} {k : String} :
    k ∈ sortedKeys S ↔ k ∈ sourceKeys S := by
  unfold sortedKeys
  rw [(List.perm_insertionSort strLeP _).mem_iff, List.mem_dedup]

/-- The second run's global unique dictionary has the same entry data as
the first run's: the duplicated records are re-absorbed. -/
theorem uniq_entries_append_dup (fit : StructureRecord → StructureRecord → Bool)
    (S T₀ C : List StructureRecord)
    (hrefl : ∀ r ∈ C, fit r r = true)
    (hu : ((S ++ T₀).map (fun r => r.uuid)).Nodup)
    (hC : ∀ c ∈ C, c ∈ sourceEntries S)
    (hCnd : (C.map (fun r => r.uuid)).Nodup) :
    (uniq_entries fit S (T₀ ++ C)).map entryData =
      (uniq_entries fit S T₀).map entryData := by
  unfold uniq_entries
  rw [List.map_flatten, List.map_flatten, List.map_map, List.map_map]
  congr 1
  refine List.map_congr_left ?_
  intro k _
  simp only [Function.comp]
  rw [bucketRecords_append_dup S T₀ C k hu hC hCnd]
  unfold first_come_first_serve
  exact fcfs_dup_fold (fun r => decide (r ∈ C))
    (fun r hr => hrefl r (by simpa using hr))
    (bucketRecords S T₀ k) [] [] []
    (by simpa using bucket_map_uuid_nodup S T₀ k hu)
    rfl (by simp) (by simp)

theorem forall₂_of_map_pointwise {α β : Type} {g h : α → List β} :
    ∀ {keys : List α}, (∀ k ∈ keys, List.Perm (g k) (h k)) →
      List.Forall₂ List.Perm (keys.map g) (keys.map h) := by
  intro keys
  induction keys with
  | nil => intro _; exact List.Forall₂.nil
  | cons k ks ih =>
    intro h1
    exact List.Forall₂.cons (h1 k (List.mem_cons_self _ _))
      (ih (fun k' hk' => h1 k' (List.mem_cons_of_mem _ hk')))

/-- The member lists of the global unique dictionary partition the
clustered records. -/
theorem uniq_entries_members_perm (fit : StructureRecord → StructureRecord → Bool)
    (S T : List StructureRecord)
    (hu : ((S ++ T).map (fun r => r.uuid)).Nodup) :
    List.Perm ((uniq_entries fit S T).map (fun e => e.members)).flatten
      (sourceEntries S ++ targetEntries S T) := by
  unfold uniq_entries
  rw [List.map_flatten, List.map_map]
  have hjoin : ((sortedKeys S).map (List.flatten ∘ (List.map (fun e => e.members) ∘
      (fun k => first_come_first_serve fit (bucketRecords S T k))))).flatten =
      (((sortedKeys S).map (List.map (fun e => e.members) ∘
        (fun k => first_come_first_serve fit (bucketRecords S T k)))).flatten).flatten := by
    induction sortedKeys S with
    | nil => rfl
    | cons k ks ih => simp [ih]
  have h1 : ∀ k ∈ sortedKeys S,
      List.Perm ((List.flatten ∘ (List.map (fun e => e.members) ∘
          (fun k => first_come_first_serve fit (bucketRecords S T k)))) k)
        ((sourceEntries S ++ targetEntries S T).filter (fun r => r.formula = k)) := by
    intro k _
    simp only [Function.comp]
    have hnodup : ((bucketRecords S T k).map (fun r => r.uuid)).Nodup :=
      bucket_map_uuid_nodup S T k hu
    have hf := (fcfs_facts fit (bucketRecords S T k) hnodup).1
    refine hf.trans ?_
    have hp : List.Perm (bucketRecords S T k)
        ((sourceEntries S).filter (fun r => r.formula = k)
          ++ (targetEntries S T).filter (fun r => r.formula = k)) :=
      List.perm_insertionSort recLe _
    refine hp.trans ?_
    rw [List.filter_append]
  have h2 := forall₂_perm_flatten (forall₂_of_map_pointwise h1)
  rw [hjoin] at h2
  refine h2.trans ?_
  rw [← List.flatMap_def]
  refine flatMap_filter_perm (fun r => r.formula) (sortedKeys S) _
    (sortedKeys_nodup S) ?_
  intro x hx
  rcases List.mem_append.mp hx with h | h
  · exact mem_sortedKeys.mpr (mem_sourceEntries_facts h).2.2.2
  · have := List.of_mem_filter h
    exact mem_sortedKeys.mpr (by simpa using this)

theorem uniq_entries_canon_mem (fit : StructureRecord → StructureRecord → Bool)
    (S T : List StructureRecord)
    (hu : ((S ++ T).map (fun r => r.uuid)).Nodup) :
    ∀ e ∈ uniq_entries fit S T, e.canon ∈ e.members := by
  intro e he
  unfold uniq_entries at he
  obtain ⟨l, hl, hel⟩ := List.mem_flatten.mp he
  obtain ⟨k, hk, hfk⟩ := List.mem_map.mp hl
  subst hfk
  exact (fcfs_facts fit (bucketRecords S T k)
    (bucket_map_uuid_nodup S T k hu)).2.1 e hel

/-- With pairwise-disjoint member lists and uuid-injective members, at most
one entry contains a member with a given uuid. -/
theorem filter_entryHas_subsingleton :
    ∀ {es : List UniqEntry},
      List.Pairwise (fun e₁ e₂ => List.Disjoint e₁.members e₂.members) es →
      (∀ m₁ ∈ (es.map (fun e => e.members)).flatten,
        ∀ m₂ ∈ (es.map (fun e => e.members)).flatten,
          m₁.uuid = m₂.uuid → m₁ = m₂) →
      ∀ t, es.filter (entryHas t) = [] ∨ ∃ e, es.filter (entryHas t) = [e] := by
  intro es
  induction es with
  | nil => intro _ _ t; exact Or.inl rfl
  | cons e rest ih =>
    intro hdisj hinj t
    obtain ⟨hd, hp⟩ := List.pairwise_cons.mp hdisj
    have hinj' : ∀ m₁ ∈ (rest.map (fun e => e.members)).flatten,
        ∀ m₂ ∈ (rest.map (fun e => e.members)).flatten, m₁.uuid = m₂.uuid → m₁ = m₂ := by
      intro m₁ h₁ m₂ h₂
      exact hinj m₁ (by simp only [List.map_cons, List.flatten_cons]; exact List.mem_append.mpr (Or.inr h₁))
        m₂ (by simp only [List.map_cons, List.flatten_cons]; exact List.mem_append.mpr (Or.inr h₂))
    by_cases hhas : entryHas t e
    · refine Or.inr ⟨e, ?_⟩
      rw [List.filter_cons_of_pos hhas]
      have hnil : rest.filter (entryHas t) = [] := by
        rw [List.filter_eq_nil_iff]
        intro e' he' hcon
        obtain ⟨m, hm, hmu⟩ := List.any_eq_true.mp hhas
        obtain ⟨m', hm', hmu'⟩ := List.any_eq_true.mp hcon
        have hmu2 : m.uuid = t.uuid := by simpa using hmu
        have hmu2' : m'.uuid = t.uuid := by simpa using hmu'
        have hmeq : m = m' := by
          refine hinj m ?_ m' ?_ (hmu2.trans hmu2'.symm)
          · simp only [List.map_cons, List.flatten_cons]
            exact List.mem_append.mpr (Or.inl hm)
          · simp only [List.map_cons, List.flatten_cons]
            refine List.mem_append.mpr (Or.inr (List.mem_flatten.mpr ⟨e'.members, ?_, hm'⟩))
            exact List.mem_map_of_mem _ he'
        exact hd e' he' hm (hmeq ▸ hm')
      rw [hnil]
    · rw [List.filter_cons_of_neg hhas]
      exact ih hp hinj' t

theorem mapM_eq_some_map {α β : Type} (f : α → Option β) (g : α → β) :
    ∀ (l : List α), (∀ x ∈ l, f x = some (g x)) → l.mapM f = some (l.map g) := by
  intro l
  induction l with
  | nil => intro _; rfl
  | cons x xs ih =>
    intro h
    rw [List.mapM_cons, h x (List.mem_cons_self _ _),
      ih (fun y hy => h y (List.mem_cons_of_mem _ hy))]
    rfl

theorem target_duplicates_for_entry_eq (st : DriverState) (t : StructureRecord)
    (e : UniqEntry) (d : Finset String) (h : lookupDup st.dup t.uuid = some d) :
    target_duplicates_for_entry st t e =
      some (d ∪ e.members.toFinset.biUnion (get_duplicate_set st.dup)) := by
  unfold target_duplicates_for_entry
  rw [h, Option.map_some']
  rw [foldl_union_biUnion]

theorem updatesForTarget_eq (st : DriverState) (entries : List UniqEntry)
    (t : StructureRecord) (d : Finset String)
    (h : lookupDup st.dup t.uuid = some d) :
    updatesForTarget st entries t =
      some ((entries.filter (entryHas t)).map
        (fun e => (t, d ∪ e.members.toFinset.biUnion (get_duplicate_set st.dup)))) := by
  unfold updatesForTarget
  exact mapM_eq_some_map _ _ _
    (fun e _ => by rw [target_duplicates_for_entry_eq st t e d h, Option.map_some'])

theorem allTargetUpdates_eq (st : DriverState) (entries : List UniqEntry)
    (hT : ∀ t ∈ st.target, (lookupDup st.dup t.uuid).isSome) :
    allTargetUpdates st entries =
      some (st.target.flatMap (fun t => (entries.filter (entryHas t)).map
        (fun e => (t, ((lookupDup st.dup t.uuid).getD ∅) ∪
          e.members.toFinset.biUnion (get_duplicate_set st.dup))))) := by
  unfold allTargetUpdates
  rw [mapM_eq_some_map _
    (fun t => (entries.filter (entryHas t)).map
      (fun e => (t, ((lookupDup st.dup t.uuid).getD ∅) ∪
        e.members.toFinset.biUnion (get_duplicate_set st.dup))))
    st.target ?_]
  · rw [Option.map_some', List.flatMap_def]
  · intro t ht
    obtain ⟨d, hd⟩ := Option.isSome_iff_exists.mp (hT t ht)
    rw [updatesForTarget_eq st entries t d hd]
    simp only [hd, Option.getD_some]

theorem applyTargetUpdates_some (st : DriverState) :
    ∀ (upds : List (StructureRecord × Finset String)),
      (∀ p ∈ upds, duplicateKey p.1 ∈ p.2) →
      ∃ st', applyTargetUpdates st upds = some st' := by
  intro upds
  induction upds generalizing st with
  | nil => intro _; exact ⟨st, rfl⟩
  | cons p rest ih =>
    intro h
    obtain ⟨t, d⟩ := p
    obtain ⟨st', hst'⟩ := ih { st with dup := setDup st.dup t.uuid (d.erase (duplicateKey t)) }
      (fun q hq => h q (List.mem_cons_of_mem _ hq))
    refine ⟨st', ?_⟩
    unfold applyTargetUpdates
    rw [if_pos (h (t, d) (List.mem_cons_self _ _))]
    exact hst'

theorem applyTargetUpdates_target (st : DriverState) :
    ∀ (upds : List (StructureRecord × Finset String)) (st' : DriverState),
      applyTargetUpdates st upds = some st' → st'.target = st.target := by
  intro upds
  induction upds generalizing st with
  | nil =>
    intro st' h
    simp only [applyTargetUpdates, Option.some.injEq] at h
    rw [← h]
  | cons p rest ih =>
    intro st' h
    obtain ⟨t, d⟩ := p
    simp only [applyTargetUpdates] at h
    by_cases hk : duplicateKey t ∈ d
    · rw [if_pos hk] at h
      exact ih { st with dup := setDup st.dup t.uuid (d.erase (duplicateKey t)) } st' h
    · rw [if_neg hk] at h
      cases h

theorem applyTargetUpdates_lookup (st : DriverState) :
    ∀ (upds : List (StructureRecord × Finset String)) (st' : DriverState),
      ((upds.map (fun p => p.1.uuid)).Nodup) →
      applyTargetUpdates st upds = some st' →
      ∀ u, lookupDup st'.dup u =
        match upds.find? (fun p => p.1.uuid = u) with
        | some p => some (p.2.erase (duplicateKey p.1))
        | none => lookupDup st.dup u := by
  intro upds
  induction upds generalizing st with
  | nil =>
    intro st' _ h u
    simp only [applyTargetUpdates, Option.some.injEq] at h
    rw [← h]
    rfl
  | cons p rest ih =>
    intro st' hnd h u
    obtain ⟨t, d⟩ := p
    simp only [applyTargetUpdates] at h
    by_cases hk : duplicateKey t ∈ d
    · rw [if_pos hk] at h
      rw [List.map_cons, List.nodup_cons] at hnd
      have hrec := ih _ _ hnd.2 h u
      by_cases hu : t.uuid = u
      · have hfind : rest.find? (fun p => p.1.uuid = u) = none := by
          rw [List.find?_eq_none]
          intro q hq
          simp only [decide_eq_true_eq]
          intro hcon
          exact hnd.1 (hu ▸ hcon ▸ List.mem_map_of_mem (fun p => p.1.uuid) hq)
        rw [hfind] at hrec
        rw [hrec]
        have hhead : List.find? (fun p => p.1.uuid = u) ((t, d) :: rest) = some (t, d) :=
          List.find?_cons_of_pos _ (by simpa using hu)
        rw [hhead]
        subst hu
        rw [lookupDup_setDup_self]
      · have hhead : List.find? (fun p => p.1.uuid = u) ((t, d) :: rest) =
            List.find? (fun p => p.1.uuid = u) rest :=
          List.find?_cons_of_neg _ (by simpa using hu)
        rw [hhead, hrec]
        cases hfind : rest.find? (fun p => p.1.uuid = u) with
        | some q => rfl
        | none =>
          simp only []
          exact lookupDup_setDup_other st.dup t.uuid u _ (fun hcon => hu hcon.symm)
    · rw [if_neg hk] at h
      cases h

theorem applyNewEntries_some (st : DriverState) (acc : List StructureRecord) :
    ∀ (es : List UniqEntry), (∀ e ∈ es, e.canon ∈ e.members) →
      ∃ st' ns, applyNewEntries st acc es = some (st', ns) := by
  intro es
  induction es generalizing st acc with
  | nil => intro _; exact ⟨st, acc, rfl⟩
  | cons e rest ih =>
    intro h
    have hks : duplicateKey e.canon ∈
        (lookupDup st.dup e.canon.uuid).getD ∅ ∪ (e.members.map duplicateKey).toFinset := by
      refine Finset.mem_union_right _ ?_
      rw [List.mem_toFinset]
      exact List.mem_map_of_mem _ (h e (List.mem_cons_self _ _))
    obtain ⟨st', ns, hst'⟩ := ih
      { st with dup := setDup st.dup e.canon.uuid (ledger_union ((lookupDup st.dup e.canon.uuid).getD ∅) ((e.members.map duplicateKey).toFinset) (duplicateKey e.canon)) }
      (acc ++ [e.canon]) (fun e' he' => h e' (List.mem_cons_of_mem _ he'))
    refine ⟨st', ns, ?_⟩
    simp only [applyNewEntries]
    rw [if_pos hks]
    exact hst'

theorem applyNewEntries_char (st : DriverState) (acc : List StructureRecord) :
    ∀ (es : List UniqEntry) (st' : DriverState) (ns : List StructureRecord),
      ((es.map (fun e => e.canon.uuid)).Nodup) →
      applyNewEntries st acc es = some (st', ns) →
      ns = acc ++ es.map (fun e => e.canon) ∧ st'.target = st.target ∧
      ∀ u, lookupDup st'.dup u =
        match es.find? (fun e => e.canon.uuid = u) with
        | some e => some (ledger_union ((lookupDup st.dup e.canon.uuid).getD ∅)
            ((e.members.map duplicateKey).toFinset) (duplicateKey e.canon))
        | none => lookupDup st.dup u := by
  intro es
  induction es generalizing st acc with
  | nil =>
    intro st' ns _ h
    simp only [applyNewEntries, Option.some.injEq, Prod.mk.injEq] at h
    refine ⟨by rw [← h.2]; simp, by rw [← h.1], fun u => by rw [← h.1]; rfl⟩
  | cons e rest ih =>
    intro st' ns hnd h
    simp only [applyNewEntries] at h
    by_cases hks : duplicateKey e.canon ∈
        (lookupDup st.dup e.canon.uuid).getD ∅ ∪ (e.members.map duplicateKey).toFinset
    · rw [if_pos hks] at h
      rw [List.map_cons, List.nodup_cons] at hnd
      obtain ⟨h1, h2, h3⟩ := ih _ _ _ _ hnd.2 h
      refine ⟨by rw [h1]; simp, h2, ?_⟩
      intro u
      have hrec := h3 u
      by_cases hu : e.canon.uuid = u
      · have hfind : rest.find? (fun e' => e'.canon.uuid = u) = none := by
          rw [List.find?_eq_none]
          intro e' he'
          simp only [decide_eq_true_eq]
          intro hcon
          exact hnd.1 (hu ▸ hcon ▸ List.mem_map_of_mem (fun e => e.canon.uuid) he')
        rw [hfind] at hrec
        rw [hrec]
        have hhead : List.find? (fun e' => e'.canon.uuid = u) (e :: rest) = some e :=
          List.find?_cons_of_pos _ (by simpa using hu)
        rw [hhead]
        subst hu
        rw [lookupDup_setDup_self]
      · have hhead : List.find? (fun e' => e'.canon.uuid = u) (e :: rest) =
            List.find? (fun e' => e'.canon.uuid = u) rest :=
          List.find?_cons_of_neg _ (by simpa using hu)
        rw [hhead]
        cases hfind : rest.find? (fun e' => e'.canon.uuid = u) with
        | some e' =>
          rw [hfind] at hrec
          simp only [] at hrec ⊢
          rw [hrec]
          have he' : e' ∈ rest := List.mem_of_find?_eq_some hfind
          have hne : e'.canon.uuid ≠ e.canon.uuid := fun hcon =>
            hnd.1 (hcon ▸ List.mem_map_of_mem (fun x => x.canon.uuid) he')
          rw [lookupDup_setDup_other st.dup e.canon.uuid e'.canon.uuid _ hne]
        | none =>
          rw [hfind] at hrec
          simp only [] at hrec ⊢
          rw [hrec]
          exact lookupDup_setDup_other st.dup e.canon.uuid u _ (fun hcon => hu hcon.symm)
    · rw [if_neg hks] at h
      cases h

/-- The duplicate-set pool of one class against a ledger: the union of
`get_duplicate_set` over the class members. -/
def entryB (d : List (String × Finset String)) (e : UniqEntry) : Finset String :=
  e.members.toFinset.biUnion (get_duplicate_set d)

theorem K_subset_entryB (d : List (String × Finset String)) (e : UniqEntry) :
    (e.members.map duplicateKey).toFinset ⊆ entryB d e := by
  intro x hx
  rw [List.mem_toFinset] at hx
  obtain ⟨m, hm, hmx⟩ := List.mem_map.mp hx
  subst hmx
  exact Finset.mem_biUnion.mpr ⟨m, List.mem_toFinset.mpr hm, Finset.mem_insert_self _ _⟩

theorem getD_subset_entryB (d : List (String × Finset String)) (e : UniqEntry)
    (m : StructureRecord) (hm : m ∈ e.members) :
    (lookupDup d m.uuid).getD ∅ ⊆ entryB d e := by
  intro x hx
  exact Finset.mem_biUnion.mpr ⟨m, List.mem_toFinset.mpr hm, Finset.mem_insert_of_mem hx⟩

theorem entryB_of_none (d : List (String × Finset String)) (e : UniqEntry)
    (h : ∀ m ∈ e.members, lookupDup d m.uuid = none) :
    entryB d e = (e.members.map duplicateKey).toFinset := by
  refine Finset.Subset.antisymm ?_ (K_subset_entryB d e)
  intro x hx
  obtain ⟨m, hm, hx2⟩ := Finset.mem_biUnion.mp hx
  rw [List.mem_toFinset] at hm
  unfold get_duplicate_set at hx2
  rw [h m hm] at hx2
  simp only [Option.getD_none] at hx2
  rcases Finset.mem_insert.mp hx2 with h' | h'
  · subst h'
    rw [List.mem_toFinset]
    exact List.mem_map_of_mem _ hm
  · cases Finset.not_mem_empty x h'

theorem erase_sandwich {V X : Finset String} {a : String}
    (h1 : V.erase a ⊆ X) (h2 : X ⊆ V) : X.erase a = V.erase a := by
  refine Finset.Subset.antisymm (Finset.erase_subset_erase a h2) ?_
  intro x hx
  exact Finset.mem_erase.mpr ⟨(Finset.mem_erase.mp hx).1, h1 hx⟩

theorem bool_eq_of_iff {a b : Bool} (h : a = true ↔ b = true) : a = b :=
  Bool.eq_iff_iff.mpr h

/-- Entries with equal `entryData` contain the same target structures. -/
theorem entryHas_congr {e₁ e₂ : UniqEntry} (h : entryData e₁ = entryData e₂)
    (t : StructureRecord) : entryHas t e₁ = entryHas t e₂ := by
  have hm := entryData_members h
  have hmem : ∀ m : StructureRecord, m ∈ e₁.members ↔ m ∈ e₂.members := by
    intro m
    rw [← List.mem_toFinset, hm, List.mem_toFinset]
  refine bool_eq_of_iff ?_
  unfold entryHas
  rw [List.any_eq_true, List.any_eq_true]
  constructor
  · rintro ⟨m, hmm, hp⟩
    exact ⟨m, (hmem m).mp hmm, hp⟩
  · rintro ⟨m, hmm, hp⟩
    exact ⟨m, (hmem m).mpr hmm, hp⟩

theorem uniq_entries_flatten_uuid_nodup (fit : StructureRecord → StructureRecord → Bool)
    (S T : List StructureRecord)
    (hu : ((S ++ T).map (fun r => r.uuid)).Nodup) :
    ((((uniq_entries fit S T).map (fun e => e.members)).flatten).map
      (fun r => r.uuid)).Nodup := by
  have hperm := uniq_entries_members_perm fit S T hu
  have hsub : (sourceEntries S ++ targetEntries S T).Sublist (S ++ T) :=
    (sourceEntries_sublist S).append (targetEntries_sublist S T)
  have hnd : ((sourceEntries S ++ targetEntries S T).map (fun r => r.uuid)).Nodup :=
    (hsub.map _).nodup hu
  exact ((hperm.map _).nodup_iff).mpr hnd

theorem uniq_entries_mem_inj (fit : StructureRecord → StructureRecord → Bool)
    (S T : List StructureRecord)
    (hu : ((S ++ T).map (fun r => r.uuid)).Nodup) :
    ∀ e₁ ∈ uniq_entries fit S T, ∀ e₂ ∈ uniq_entries fit S T,
      ∀ m₁ ∈ e₁.members, ∀ m₂ ∈ e₂.members, m₁.uuid = m₂.uuid → m₁ = m₂ := by
  intro e₁ h₁ e₂ h₂ m₁ hm₁ m₂ hm₂ hequ
  have hf₁ : m₁ ∈ ((uniq_entries fit S T).map (fun e => e.members)).flatten :=
    List.mem_flatten.mpr ⟨e₁.members, List.mem_map_of_mem _ h₁, hm₁⟩
  have hf₂ : m₂ ∈ ((uniq_entries fit S T).map (fun e => e.members)).flatten :=
    List.mem_flatten.mpr ⟨e₂.members, List.mem_map_of_mem _ h₂, hm₂⟩
  exact List.inj_on_of_nodup_map (uniq_entries_flatten_uuid_nodup fit S T hu) hf₁ hf₂ hequ

theorem uniq_entries_disjoint (fit : StructureRecord → StructureRecord → Bool)
    (S T : List StructureRecord)
    (hu : ((S ++ T).map (fun r => r.uuid)).Nodup) :
    List.Pairwise (fun e₁ e₂ => List.Disjoint e₁.members e₂.members)
      (uniq_entries fit S T) := by
  have hnd : (((uniq_entries fit S T).map (fun e => e.members)).flatten).Nodup :=
    List.Nodup.of_map _ (uniq_entries_flatten_uuid_nodup fit S T hu)
  have := (List.nodup_flatten.mp hnd).2
  exact List.pairwise_map.mp this

theorem entries_eq_of_common_member :
    ∀ {es : List UniqEntry},
      List.Pairwise (fun e₁ e₂ => List.Disjoint e₁.members e₂.members) es →
      ∀ {e e' : UniqEntry}, e ∈ es → e' ∈ es →
      ∀ m, m ∈ e.members → m ∈ e'.members → e = e' := by
  intro es
  induction es with
  | nil => intro _ e e' he; cases he
  | cons a l ih =>
    intro hp e e' he he' m hm hm'
    obtain ⟨hd, ht⟩ := List.pairwise_cons.mp hp
    rcases List.mem_cons.mp he with h1 | h1 <;> rcases List.mem_cons.mp he' with h2 | h2
    · rw [h1, h2]
    · exact ((hd e' h2) (h1 ▸ hm) hm').elim
    · exact ((hd e h1) (h2 ▸ hm') hm).elim
    · exact ih ht h1 h2 m hm hm'

theorem uniq_entries_canon_uuid_nodup (fit : StructureRecord → StructureRecord → Bool)
    (S T : List StructureRecord)
    (hu : ((S ++ T).map (fun r => r.uuid)).Nodup) :
    ((uniq_entries fit S T).map (fun e => e.canon.uuid)).Nodup := by
  have hdisj := uniq_entries_disjoint fit S T hu
  have hcanon := uniq_entries_canon_mem fit S T hu
  have hinj := uniq_entries_mem_inj fit S T hu
  have hne : List.Pairwise (fun e₁ e₂ => e₁.canon.uuid ≠ e₂.canon.uuid)
      (uniq_entries fit S T) := by
    refine List.Pairwise.imp_of_mem ?_ hdisj
    intro e₁ e₂ h1 h2 hdis hequ
    have h3 : e₁.canon = e₂.canon :=
      hinj e₁ h1 e₂ h2 e₁.canon (hcanon e₁ h1) e₂.canon (hcanon e₂ h2) hequ
    exact hdis (hcanon e₁ h1) (h3.symm ▸ hcanon e₂ h2)
  exact List.Pairwise.map _ (fun a b h => h) hne

theorem uniq_entries_member_pool (fit : StructureRecord → StructureRecord → Bool)
    (S T : List StructureRecord)
    (hu : ((S ++ T).map (fun r => r.uuid)).Nodup) :
    ∀ e ∈ uniq_entries fit S T, ∀ m ∈ e.members,
      m ∈ sourceEntries S ∨ m ∈ targetEntries S T := by
  intro e he m hm
  have hflatm : m ∈ ((uniq_entries fit S T).map (fun e => e.members)).flatten :=
    List.mem_flatten.mpr ⟨e.members, List.mem_map_of_mem _ he, hm⟩
  exact List.mem_append.mp ((uniq_entries_members_perm fit S T hu).mem_iff.mp hflatm)

/-- A target structure found among an entry's members by uuid is that member
itself, provided it comes from the same uuid-distinct pool. -/
theorem entryHas_mem_of_pool (fit : StructureRecord → StructureRecord → Bool)
    (S T : List StructureRecord)
    (hu : ((S ++ T).map (fun r => r.uuid)).Nodup)
    {t : StructureRecord} (ht : t ∈ S ++ T) {e : UniqEntry}
    (he : e ∈ uniq_entries fit S T) (hhas : entryHas t e = true) :
    t ∈ e.members := by
  obtain ⟨m, hm, hmu⟩ := List.any_eq_true.mp hhas
  have hmu2 : m.uuid = t.uuid := by simpa using hmu
  have hflatm : m ∈ ((uniq_entries fit S T).map (fun e => e.members)).flatten :=
    List.mem_flatten.mpr ⟨e.members, List.mem_map_of_mem _ he, hm⟩
  have hmsrc := (uniq_entries_members_perm fit S T hu).mem_iff.mp hflatm
  have hmpool : m ∈ S ++ T := by
    rcases List.mem_append.mp hmsrc with h' | h'
    · exact List.mem_append.mpr (Or.inl ((sourceEntries_sublist S).subset h'))
    · exact List.mem_append.mpr (Or.inr ((targetEntries_sublist S T).subset h'))
  have hmt : m = t := List.inj_on_of_nodup_map hu hmpool ht hmu2
  exact hmt ▸ hm

/-- `find?` on a flat map whose blocks are keyed by uuid-distinct records
reduces to `find?` on the looked-up record's block. -/
theorem find?_flatMap_key (g : StructureRecord → List (StructureRecord × Finset String))
    (hg : ∀ t p, p ∈ g t → p.1 = t) :
    ∀ (ts : List StructureRecord), ((ts.map (fun r => r.uuid)).Nodup) →
      ∀ t ∈ ts, (ts.flatMap g).find? (fun p => p.1.uuid = t.uuid) =
        (g t).find? (fun p => p.1.uuid = t.uuid) := by
  intro ts
  induction ts with
  | nil => intro _ t ht; cases ht
  | cons a l ih =>
    intro hnd t ht
    rw [List.map_cons, List.nodup_cons] at hnd
    rw [List.flatMap_cons, List.find?_append]
    rcases List.mem_cons.mp ht with h1 | h1
    · subst h1
      have hnone : (l.flatMap g).find? (fun p => p.1.uuid = t.uuid) = none := by
        rw [List.find?_eq_none]
        intro p hp
        obtain ⟨b, hb, hpb⟩ := List.mem_flatMap.mp hp
        rw [hg b p hpb]
        simp only [decide_eq_true_eq]
        intro hcon
        exact hnd.1 (hcon ▸ List.mem_map_of_mem (fun r => r.uuid) hb)
      rw [hnone, Option.or_none]
    · have hnone : (g a).find? (fun p => p.1.uuid = t.uuid) = none := by
        rw [List.find?_eq_none]
        intro p hp
        rw [hg a p hp]
        simp only [decide_eq_true_eq]
        intro hcon
        exact hnd.1 (hcon.symm ▸ List.mem_map_of_mem (fun r => r.uuid) h1)
      rw [hnone, Option.none_or]
      exact ih hnd.2 t h1

/-- The keys of a flat map with at-most-singleton uuid-keyed blocks form a
sublist of the spine's uuids. -/
theorem flatMap_key_sublist (g : StructureRecord → List (StructureRecord × Finset String))
    (hg : ∀ t p, p ∈ g t → p.1 = t) (hlen : ∀ t, (g t).length ≤ 1) :
    ∀ (ts : List StructureRecord),
      ((ts.flatMap g).map (fun p => p.1.uuid)).Sublist (ts.map (fun r => r.uuid)) := by
  intro ts
  induction ts with
  | nil => simp
  | cons a l ih =>
    rw [List.flatMap_cons, List.map_append, List.map_cons]
    cases hga : g a with
    | nil =>
      simp only [List.map_nil, List.nil_append]
      exact List.Sublist.cons _ ih
    | cons p tl =>
      cases tl with
      | cons q tl2 =>
        exact absurd (hlen a) (by rw [hga]; simp)
      | nil =>
        have hp : p.1 = a := hg a p (by rw [hga]; exact List.mem_cons_self _ _)
        simp only [List.map_cons, List.map_nil, List.singleton_append]
        rw [hp]
        exact List.Sublist.cons₂ _ ih

/-- Target updates whose values are already stored (minus the own key) are
applied without changing the state. -/
theorem applyTargetUpdates_noop (st : DriverState) :
    ∀ (upds : List (StructureRecord × Finset String)),
      (∀ p ∈ upds, duplicateKey p.1 ∈ p.2 ∧
        lookupDup st.dup p.1.uuid = some (p.2.erase (duplicateKey p.1))) →
      applyTargetUpdates st upds = some st := by
  intro upds
  induction upds with
  | nil => intro _; rfl
  | cons p rest ih =>
    intro h
    obtain ⟨t, d⟩ := p
    have hmem := h (t, d) (List.mem_cons_self _ _)
    unfold applyTargetUpdates
    rw [if_pos hmem.1]
    have hset : setDup st.dup t.uuid (d.erase (duplicateKey t)) = st.dup :=
      setDup_eq_self hmem.2
    have hst : { st with dup := setDup st.dup t.uuid (d.erase (duplicateKey t)) } = st := by
      rw [hset]
    rw [hst]
    exact ih (fun q hq => h q (List.mem_cons_of_mem _ hq))

/-- Every member of an unmatched class comes from the source group. -/
theorem remainingNew_members_src (fit : StructureRecord → StructureRecord → Bool)
    (S T₀ : List StructureRecord) (d₀ : List (String × Finset String))
    (hu : ((S ++ T₀).map (fun r => r.uuid)).Nodup) :
    ∀ e ∈ remainingNew ⟨T₀, d₀⟩ (uniq_entries fit S T₀), ∀ m ∈ e.members,
      m ∈ sourceEntries S := by
  intro e he m hm
  have he2 : e ∈ uniq_entries fit S T₀ := List.mem_of_mem_filter he
  have hpred : (!(T₀.any (fun t => entryHas t e))) = true := (List.mem_filter.mp he).2
  rcases uniq_entries_member_pool fit S T₀ hu e he2 m hm with h | h
  · exact h
  · exfalso
    have hmT : m ∈ T₀ := (targetEntries_sublist S T₀).subset h
    have hhas : entryHas m e = true :=
      List.any_eq_true.mpr ⟨m, hm, by simp⟩
    have hany : (T₀.any (fun t => entryHas t e)) = true :=
      List.any_eq_true.mpr ⟨m, hmT, hhas⟩
    rw [hany] at hpred
    cases hpred

/-- The duplicate set computed for one matched target against the pre-run
ledger. -/
def targetVal (d₀ : List (String × Finset String)) (t : StructureRecord)
    (e : UniqEntry) : Finset String :=
  (lookupDup d₀ t.uuid).getD ∅ ∪ entryB d₀ e

/-- The update pairs contributed by one target structure. -/
def targetBlock (fit : StructureRecord → StructureRecord → Bool)
    (S T₀ : List StructureRecord) (d₀ : List (String × Finset String))
    (t : StructureRecord) : List (StructureRecord × Finset String) :=
  ((uniq_entries fit S T₀).filter (entryHas t)).map (fun e => (t, targetVal d₀ t e))

/-- The whole `target_duplicates_list` of a run, in loop order. -/
def targetUpds (fit : StructureRecord → StructureRecord → Bool)
    (S T₀ : List StructureRecord) (d₀ : List (String × Finset String)) :
    List (StructureRecord × Finset String) :=
  T₀.flatMap (targetBlock fit S T₀ d₀)

theorem targetBlock_key (fit : StructureRecord → StructureRecord → Bool)
    (S T₀ : List StructureRecord) (d₀ : List (String × Finset String)) :
    ∀ t p, p ∈ targetBlock fit S T₀ d₀ t → p.1 = t := by
  intro t p hp
  obtain ⟨e, _, hpe⟩ := List.mem_map.mp hp
  rw [← hpe]

theorem mem_targetUpds {fit : StructureRecord → StructureRecord → Bool}
    {S T₀ : List StructureRecord} {d₀ : List (String × Finset String)}
    {p : StructureRecord × Finset String} :
    p ∈ targetUpds fit S T₀ d₀ ↔ ∃ t ∈ T₀, ∃ e ∈ uniq_entries fit S T₀,
      entryHas t e = true ∧ p = (t, targetVal d₀ t e) := by
  unfold targetUpds targetBlock
  rw [List.mem_flatMap]
  constructor
  · rintro ⟨t, ht, hp⟩
    obtain ⟨e, he, hpe⟩ := List.mem_map.mp hp
    exact ⟨t, ht, e, List.mem_of_mem_filter he, (List.mem_filter.mp he).2, hpe.symm⟩
  · rintro ⟨t, ht, e, he, hhas, hp⟩
    exact ⟨t, ht, List.mem_map.mpr ⟨e, List.mem_filter.mpr ⟨he, hhas⟩, hp.symm⟩⟩

/-- The early return of the driver on an empty candidate selection. -/
theorem run_uniq_eq_empty (fit : StructureRecord → StructureRecord → Bool)
    (S : List StructureRecord) (st : DriverState)
    (h : (S.isEmpty || (S.filter queryFilter).isEmpty) = true) :
    run_uniq fit S st = some ⟨st, [], []⟩ := by
  unfold run_uniq
  rw [if_pos h]

/-- The driver's result when no new classes remain. -/
theorem run_uniq_eq (fit : StructureRecord → StructureRecord → Bool)
    (S : List StructureRecord) (st : DriverState)
    (upds : List (StructureRecord × Finset String)) (st1 : DriverState)
    (hne : ¬(S.isEmpty || (S.filter queryFilter).isEmpty) = true)
    (h1 : allTargetUpdates st (uniq_entries fit S st.target) = some upds)
    (h2 : applyTargetUpdates st upds = some st1)
    (h3 : (remainingNew st (uniq_entries fit S st.target)).isEmpty = true) :
    run_uniq fit S st = some ⟨st1, upds, []⟩ := by
  unfold run_uniq
  rw [if_neg hne]
  simp only [h1, h2]
  rw [if_pos h3]

/-- The driver's result when new classes are added. -/
theorem run_uniq_eq_new (fit : StructureRecord → StructureRecord → Bool)
    (S : List StructureRecord) (st : DriverState)
    (upds : List (StructureRecord × Finset String)) (st1 st2 : DriverState)
    (ns : List StructureRecord)
    (hne : ¬(S.isEmpty || (S.filter queryFilter).isEmpty) = true)
    (h1 : allTargetUpdates st (uniq_entries fit S st.target) = some upds)
    (h2 : applyTargetUpdates st upds = some st1)
    (h3 : (remainingNew st (uniq_entries fit S st.target)).isEmpty = false)
    (h4 : applyNewEntries st1 [] (remainingNew st (uniq_entries fit S st.target)) =
      some (st2, ns)) :
    run_uniq fit S st = some ⟨{ st2 with target := st2.target ++ ns }, upds, ns⟩ := by
  unfold run_uniq
  rw [if_neg hne]
  simp only [h1, h2]
  rw [if_neg (by rw [h3]; exact Bool.false_ne_true)]
  simp only [h4]

theorem mem_remainingNew {st : DriverState} {entries : List UniqEntry} {e : UniqEntry} :
    e ∈ remainingNew st entries ↔
      e ∈ entries ∧ (st.target.any (fun t => entryHas t e)) = false := by
  unfold remainingNew
  rw [List.mem_filter]
  constructor
  · rintro ⟨h1, h2⟩
    refine ⟨h1, ?_⟩
    revert h2
    cases st.target.any (fun t => entryHas t e) <;> simp
  · rintro ⟨h1, h2⟩
    refine ⟨h1, ?_⟩
    rw [h2]
    rfl

/-- The first run of the driver on a well-formed state: it succeeds, appends
the new canonicals to the target group, stores for every matched target
structure the class pool minus the target's own key, keeps a ledger entry
for every old target, and stores nothing outside the class pool on any
class member. -/
theorem run_uniq_first (fit : StructureRecord → StructureRecord → Bool)
    (S T₀ : List StructureRecord) (d₀ : List (String × Finset String))
    (hu : ((S ++ T₀).map (fun r => r.uuid)).Nodup)
    (hS : ∀ s ∈ S, lookupDup d₀ s.uuid = none)
    (hT : ∀ t ∈ T₀, (lookupDup d₀ t.uuid).isSome = true)
    (hne : ¬(S.isEmpty || (S.filter queryFilter).isEmpty) = true) :
    ∃ r1, run_uniq fit S ⟨T₀, d₀⟩ = some r1 ∧
      r1.state.target = T₀ ++ r1.added ∧
      r1.added = (remainingNew ⟨T₀, d₀⟩ (uniq_entries fit S T₀)).map (fun e => e.canon) ∧
      (∀ t ∈ T₀ ++ r1.added, ∀ e ∈ uniq_entries fit S T₀, entryHas t e = true →
        lookupDup r1.state.dup t.uuid = some ((entryB d₀ e).erase (duplicateKey t))) ∧
      (∀ t ∈ T₀, (lookupDup r1.state.dup t.uuid).isSome = true) ∧
      (∀ e ∈ uniq_entries fit S T₀, ∀ m ∈ e.members,
        (lookupDup r1.state.dup m.uuid).getD ∅ ⊆ entryB d₀ e) := by
  have hTnd : (T₀.map (fun r => r.uuid)).Nodup := by
    rw [List.map_append, List.nodup_append] at hu
    exact hu.2.1
  have hST : ∀ x ∈ S, ∀ y ∈ T₀, x.uuid ≠ y.uuid := by
    intro x hx y hy heq
    rw [List.map_append, List.nodup_append] at hu
    exact hu.2.2 (List.mem_map_of_mem _ hx) (heq ▸ List.mem_map_of_mem _ hy)
  have hdisj := uniq_entries_disjoint fit S T₀ hu
  have hcanonm := uniq_entries_canon_mem fit S T₀ hu
  have hinj := uniq_entries_mem_inj fit S T₀ hu
  have hpool := uniq_entries_member_pool fit S T₀ hu
  have hinjF : ∀ m₁ ∈ (((uniq_entries fit S T₀).map (fun e => e.members)).flatten),
      ∀ m₂ ∈ (((uniq_entries fit S T₀).map (fun e => e.members)).flatten),
        m₁.uuid = m₂.uuid → m₁ = m₂ :=
    fun m₁ h₁ m₂ h₂ h =>
      List.inj_on_of_nodup_map (uniq_entries_flatten_uuid_nodup fit S T₀ hu) h₁ h₂ h
  have hfilter_eq : ∀ t ∈ S ++ T₀, ∀ e ∈ uniq_entries fit S T₀, entryHas t e = true →
      (uniq_entries fit S T₀).filter (entryHas t) = [e] := by
    intro t _ e he hhas
    rcases filter_entryHas_subsingleton hdisj hinjF t with h | ⟨e', h⟩
    · exact absurd (List.mem_filter.mpr ⟨he, hhas⟩) (by rw [h]; simp)
    · have hmem : e ∈ [e'] := h ▸ List.mem_filter.mpr ⟨he, hhas⟩
      have hee : e = e' := by simpa using hmem
      rw [h, hee]
  have hATU : allTargetUpdates ⟨T₀, d₀⟩ (uniq_entries fit S T₀) =
      some (targetUpds fit S T₀ d₀) :=
    allTargetUpdates_eq ⟨T₀, d₀⟩ (uniq_entries fit S T₀) hT
  have hguard : ∀ p ∈ targetUpds fit S T₀ d₀, duplicateKey p.1 ∈ p.2 := by
    intro p hp
    obtain ⟨t, ht, e, he, hhas, hpe⟩ := mem_targetUpds.mp hp
    subst hpe
    have htm : t ∈ e.members :=
      entryHas_mem_of_pool fit S T₀ hu (List.mem_append.mpr (Or.inr ht)) he hhas
    refine Finset.mem_union_right _ ?_
    exact K_subset_entryB d₀ e (List.mem_toFinset.mpr (List.mem_map_of_mem _ htm))
  obtain ⟨st1, hst1⟩ := applyTargetUpdates_some ⟨T₀, d₀⟩ (targetUpds fit S T₀ d₀) hguard
  have hst1T : st1.target = T₀ :=
    applyTargetUpdates_target ⟨T₀, d₀⟩ (targetUpds fit S T₀ d₀) st1 hst1
  have hlen : ∀ t, (targetBlock fit S T₀ d₀ t).length ≤ 1 := by
    intro t
    unfold targetBlock
    rcases filter_entryHas_subsingleton hdisj hinjF t with h | ⟨e, h⟩ <;>
      rw [h] <;> simp
  have hkeynd : ((targetUpds fit S T₀ d₀).map (fun p => p.1.uuid)).Nodup :=
    (flatMap_key_sublist (targetBlock fit S T₀ d₀) (targetBlock_key fit S T₀ d₀)
      hlen T₀).nodup hTnd
  have hlook1 : ∀ u, lookupDup st1.dup u =
      match (targetUpds fit S T₀ d₀).find? (fun p => p.1.uuid = u) with
      | some p => some (p.2.erase (duplicateKey p.1))
      | none => lookupDup d₀ u :=
    applyTargetUpdates_lookup ⟨T₀, d₀⟩ (targetUpds fit S T₀ d₀) st1 hkeynd hst1
  have hfind_t : ∀ t ∈ T₀, ∀ e ∈ uniq_entries fit S T₀, entryHas t e = true →
      (targetUpds fit S T₀ d₀).find? (fun p => p.1.uuid = t.uuid) =
        some (t, targetVal d₀ t e) := by
    intro t ht e he hhas
    have h1 := find?_flatMap_key (targetBlock fit S T₀ d₀) (targetBlock_key fit S T₀ d₀)
      T₀ hTnd t ht
    have h2 : targetBlock fit S T₀ d₀ t = [(t, targetVal d₀ t e)] := by
      unfold targetBlock
      rw [hfilter_eq t (List.mem_append.mpr (Or.inr ht)) e he hhas]
      rfl
    unfold targetUpds
    rw [h1, h2]
    rw [List.find?_cons_of_pos _ (by simp)]
  have hst1_matched : ∀ t ∈ T₀, ∀ e ∈ uniq_entries fit S T₀, entryHas t e = true →
      lookupDup st1.dup t.uuid = some ((entryB d₀ e).erase (duplicateKey t)) := by
    intro t ht e he hhas
    rw [hlook1 t.uuid, hfind_t t ht e he hhas]
    show some ((targetVal d₀ t e).erase (duplicateKey t)) =
      some ((entryB d₀ e).erase (duplicateKey t))
    have htm : t ∈ e.members :=
      entryHas_mem_of_pool fit S T₀ hu (List.mem_append.mpr (Or.inr ht)) he hhas
    have hval : targetVal d₀ t e = entryB d₀ e := by
      unfold targetVal
      exact Finset.union_eq_right.mpr (getD_subset_entryB d₀ e t htm)
    rw [hval]
  have hst1_src : ∀ s ∈ S, lookupDup st1.dup s.uuid = none := by
    intro s hs
    rw [hlook1 s.uuid]
    have hnone : (targetUpds fit S T₀ d₀).find? (fun p => p.1.uuid = s.uuid) = none := by
      rw [List.find?_eq_none]
      intro p hp
      obtain ⟨t, ht, e, he, hhas, hpe⟩ := mem_targetUpds.mp hp
      subst hpe
      simp only [decide_eq_true_eq]
      intro hcon
      exact hST s hs t ht hcon.symm
    rw [hnone]
    exact hS s hs
  have hst1_T₀ : ∀ t ∈ T₀, (lookupDup st1.dup t.uuid).isSome = true := by
    intro t ht
    rw [hlook1 t.uuid]
    cases hf : (targetUpds fit S T₀ d₀).find? (fun p => p.1.uuid = t.uuid) with
    | some p => rfl
    | none => exact hT t ht
  by_cases hnew : (remainingNew ⟨T₀, d₀⟩ (uniq_entries fit S T₀)).isEmpty = true
  · have hrun : run_uniq fit S ⟨T₀, d₀⟩ = some ⟨st1, targetUpds fit S T₀ d₀, []⟩ :=
      run_uniq_eq fit S ⟨T₀, d₀⟩ (targetUpds fit S T₀ d₀) st1 hne hATU hst1 hnew
    have hnil : remainingNew ⟨T₀, d₀⟩ (uniq_entries fit S T₀) = [] :=
      List.isEmpty_iff.mp hnew
    refine ⟨⟨st1, targetUpds fit S T₀ d₀, []⟩, hrun, ?_, ?_, ?_, ?_, ?_⟩
    · show st1.target = T₀ ++ []
      rw [hst1T, List.append_nil]
    · show ([] : List StructureRecord) =
        (remainingNew ⟨T₀, d₀⟩ (uniq_entries fit S T₀)).map (fun e => e.canon)
      rw [hnil]
      rfl
    · show ∀ t ∈ T₀ ++ [], ∀ e ∈ uniq_entries fit S T₀, entryHas t e = true →
        lookupDup st1.dup t.uuid = some ((entryB d₀ e).erase (duplicateKey t))
      rw [List.append_nil]
      exact hst1_matched
    · show ∀ t ∈ T₀, (lookupDup st1.dup t.uuid).isSome = true
      exact hst1_T₀
    · show ∀ e ∈ uniq_entries fit S T₀, ∀ m ∈ e.members,
        (lookupDup st1.dup m.uuid).getD ∅ ⊆ entryB d₀ e
      intro e he m hm
      rcases hpool e he m hm with h | h
      · rw [hst1_src m ((sourceEntries_sublist S).subset h)]
        intro x hx
        simp at hx
      · have hmT : m ∈ T₀ := (targetEntries_sublist S T₀).subset h
        have hhasm : entryHas m e = true := List.any_eq_true.mpr ⟨m, hm, by simp⟩
        rw [hst1_matched m hmT e he hhasm]
        simp only [Option.getD_some]
        exact Finset.erase_subset _ _
  · have hnewF : (remainingNew ⟨T₀, d₀⟩ (uniq_entries fit S T₀)).isEmpty = false := by
      revert hnew
      cases (remainingNew ⟨T₀, d₀⟩ (uniq_entries fit S T₀)).isEmpty <;> simp
    have hsubNew : (remainingNew ⟨T₀, d₀⟩ (uniq_entries fit S T₀)).Sublist
        (uniq_entries fit S T₀) := List.filter_sublist _
    have hmemNew : ∀ e ∈ remainingNew ⟨T₀, d₀⟩ (uniq_entries fit S T₀),
        e ∈ uniq_entries fit S T₀ := fun e he => hsubNew.subset he
    have hcanonNew : ∀ e ∈ remainingNew ⟨T₀, d₀⟩ (uniq_entries fit S T₀),
        e.canon ∈ e.members := fun e he => hcanonm e (hmemNew e he)
    obtain ⟨st2, ns, happ⟩ := applyNewEntries_some st1 [] _ hcanonNew
    have hcnd : ((remainingNew ⟨T₀, d₀⟩ (uniq_entries fit S T₀)).map
        (fun e => e.canon.uuid)).Nodup :=
      (hsubNew.map _).nodup (uniq_entries_canon_uuid_nodup fit S T₀ hu)
    obtain ⟨hns, hst2T, hlook2⟩ := applyNewEntries_char st1 [] _ st2 ns hcnd happ
    have hrun : run_uniq fit S ⟨T₀, d₀⟩ =
        some ⟨{ st2 with target := st2.target ++ ns }, targetUpds fit S T₀ d₀, ns⟩ :=
      run_uniq_eq_new fit S ⟨T₀, d₀⟩ (targetUpds fit S T₀ d₀) st1 st2 ns hne hATU hst1
        hnewF happ
    have hnsdef : ns =
        (remainingNew ⟨T₀, d₀⟩ (uniq_entries fit S T₀)).map (fun e => e.canon) := by
      rw [hns]
      simp
    have hfin_matched : ∀ t ∈ T₀ ++ ns, ∀ e ∈ uniq_entries fit S T₀,
        entryHas t e = true →
        lookupDup st2.dup t.uuid = some ((entryB d₀ e).erase (duplicateKey t)) := by
      intro t ht e he hhas
      have htpool : t ∈ S ++ T₀ := by
        rcases List.mem_append.mp ht with h | h
        · exact List.mem_append.mpr (Or.inr h)
        · rw [hnsdef] at h
          obtain ⟨e', he', hce⟩ := List.mem_map.mp h
          have hsrc : e'.canon ∈ sourceEntries S :=
            remainingNew_members_src fit S T₀ d₀ hu e' he' e'.canon (hcanonNew e' he')
          exact List.mem_append.mpr (Or.inl ((sourceEntries_sublist S).subset (hce ▸ hsrc)))
      have htm : t ∈ e.members := entryHas_mem_of_pool fit S T₀ hu htpool he hhas
      rw [hlook2 t.uuid]
      rcases List.mem_append.mp ht with hT₀t | hCt
      · have hnone : (remainingNew ⟨T₀, d₀⟩ (uniq_entries fit S T₀)).find?
            (fun e' => e'.canon.uuid = t.uuid) = none := by
          rw [List.find?_eq_none]
          intro e' he'
          simp only [decide_eq_true_eq]
          intro hcon
          have hc1 : e'.canon = t :=
            hinj e' (hmemNew e' he') e he e'.canon (hcanonNew e' he') t htm hcon
          have htm' : t ∈ e'.members := hc1 ▸ hcanonNew e' he'
          have hhase' : entryHas t e' = true := List.any_eq_true.mpr ⟨t, htm', by simp⟩
          have hpred : (T₀.any (fun t'' => entryHas t'' e')) = false :=
            (mem_remainingNew.mp he').2
          have hany : (T₀.any (fun t'' => entryHas t'' e')) = true :=
            List.any_eq_true.mpr ⟨t, hT₀t, hhase'⟩
          rw [hany] at hpred
          cases hpred
        rw [hnone]
        show lookupDup st1.dup t.uuid = some ((entryB d₀ e).erase (duplicateKey t))
        exact hst1_matched t hT₀t e he hhas
      · rw [hnsdef] at hCt
        obtain ⟨e', he', hce⟩ := List.mem_map.mp hCt
        cases hf : (remainingNew ⟨T₀, d₀⟩ (uniq_entries fit S T₀)).find?
            (fun e'' => e''.canon.uuid = t.uuid) with
        | none =>
          exfalso
          exact (List.find?_eq_none.mp hf e' he') (by simp [hce])
        | some e'' =>
          have hprop : e''.canon.uuid = t.uuid := by simpa using List.find?_some hf
          have hmm'' := List.mem_of_find?_eq_some hf
          have hc2 : e''.canon = t :=
            hinj e'' (hmemNew e'' hmm'') e he e''.canon (hcanonNew e'' hmm'') t htm hprop
          have he''e : e'' = e := entries_eq_of_common_member hdisj (hmemNew e'' hmm'')
            he t (hc2 ▸ hcanonNew e'' hmm'') htm
          rw [he''e]
          have hc3 : e.canon = t := he''e ▸ hc2
          show some (ledger_union ((lookupDup st1.dup e.canon.uuid).getD ∅)
              ((e.members.map duplicateKey).toFinset) (duplicateKey e.canon)) =
            some ((entryB d₀ e).erase (duplicateKey t))
          rw [hc3]
          have htsrc : t ∈ sourceEntries S := hce ▸
            remainingNew_members_src fit S T₀ d₀ hu e' he' e'.canon (hcanonNew e' he')
          rw [hst1_src t ((sourceEntries_sublist S).subset htsrc)]
          have hBK : entryB d₀ e = (e.members.map duplicateKey).toFinset := by
            refine entryB_of_none d₀ e ?_
            intro m hm
            exact hS m ((sourceEntries_sublist S).subset
              (remainingNew_members_src fit S T₀ d₀ hu e (he''e ▸ hmm'') m hm))
          rw [hBK]
          unfold ledger_union
          rw [Option.getD_none, Finset.empty_union]
    have hfin_T₀ : ∀ t ∈ T₀, (lookupDup st2.dup t.uuid).isSome = true := by
      intro t ht
      rw [hlook2 t.uuid]
      cases hf : (remainingNew ⟨T₀, d₀⟩ (uniq_entries fit S T₀)).find?
          (fun e => e.canon.uuid = t.uuid) with
      | some e => rfl
      | none => exact hst1_T₀ t ht
    have hfin_L2 : ∀ e ∈ uniq_entries fit S T₀, ∀ m ∈ e.members,
        (lookupDup st2.dup m.uuid).getD ∅ ⊆ entryB d₀ e := by
      intro e he m hm
      rcases hpool e he m hm with hsrc | htgt
      · rw [hlook2 m.uuid]
        cases hf : (remainingNew ⟨T₀, d₀⟩ (uniq_entries fit S T₀)).find?
            (fun e'' => e''.canon.uuid = m.uuid) with
        | none =>
          show (lookupDup st1.dup m.uuid).getD ∅ ⊆ entryB d₀ e
          rw [hst1_src m ((sourceEntries_sublist S).subset hsrc)]
          intro x hx
          simp at hx
        | some e'' =>
          have hprop : e''.canon.uuid = m.uuid := by simpa using List.find?_some hf
          have hmm'' := List.mem_of_find?_eq_some hf
          have hc2 : e''.canon = m :=
            hinj e'' (hmemNew e'' hmm'') e he e''.canon (hcanonNew e'' hmm'') m hm hprop
          have he''e : e'' = e := entries_eq_of_common_member hdisj (hmemNew e'' hmm'')
            he m (hc2 ▸ hcanonNew e'' hmm'') hm
          rw [he''e]
          have hc3 : e.canon = m := he''e ▸ hc2
          show (some (ledger_union ((lookupDup st1.dup e.canon.uuid).getD ∅)
              ((e.members.map duplicateKey).toFinset) (duplicateKey e.canon))).getD ∅ ⊆
            entryB d₀ e
          simp only [Option.getD_some]
          unfold ledger_union
          rw [hc3, hst1_src m ((sourceEntries_sublist S).subset hsrc),
            Option.getD_none, Finset.empty_union]
          exact (Finset.erase_subset _ _).trans (K_subset_entryB d₀ e)
      · have hmT : m ∈ T₀ := (targetEntries_sublist S T₀).subset htgt
        have hhasm : entryHas m e = true := List.any_eq_true.mpr ⟨m, hm, by simp⟩
        rw [hfin_matched m (List.mem_append.mpr (Or.inl hmT)) e he hhasm]
        simp only [Option.getD_some]
        exact Finset.erase_subset _ _
    refine ⟨⟨{ st2 with target := st2.target ++ ns }, targetUpds fit S T₀ d₀, ns⟩,
      hrun, ?_, ?_, ?_, ?_, ?_⟩
    · show st2.target ++ ns = T₀ ++ ns
      rw [hst2T, hst1T]
    · show ns = (remainingNew ⟨T₀, d₀⟩ (uniq_entries fit S T₀)).map (fun e => e.canon)
      exact hnsdef
    · show ∀ t ∈ T₀ ++ ns, ∀ e ∈ uniq_entries fit S T₀, entryHas t e = true →
        lookupDup st2.dup t.uuid = some ((entryB d₀ e).erase (duplicateKey t))
      exact hfin_matched
    · show ∀ t ∈ T₀, (lookupDup st2.dup t.uuid).isSome = true
      exact hfin_T₀
    · show ∀ e ∈ uniq_entries fit S T₀, ∀ m ∈ e.members,
        (lookupDup st2.dup m.uuid).getD ∅ ⊆ entryB d₀ e
      exact hfin_L2

/-- The second run of the driver over the state the first run produced: the
clustering reproduces the same classes up to `entryData`, the target loop
recomputes exactly the stored duplicate sets, every class is matched by a
target structure, and nothing is written or added. -/
theorem run_uniq_second (fit : StructureRecord → StructureRecord → Bool)
    (S T₀ C : List StructureRecord) (d₀ dupF : List (String × Finset String))
    (hrefl : ∀ r : StructureRecord, fit r r = true)
    (hu : ((S ++ T₀).map (fun r => r.uuid)).Nodup)
    (hne : ¬(S.isEmpty || (S.filter queryFilter).isEmpty) = true)
    (hCsrc : ∀ c ∈ C, c ∈ sourceEntries S)
    (hCnd : (C.map (fun r => r.uuid)).Nodup)
    (hCc : ∀ e ∈ uniq_entries fit S T₀,
      (T₀.any (fun t => entryHas t e)) = false → e.canon ∈ C)
    (hL1 : ∀ t ∈ T₀ ++ C, ∀ e ∈ uniq_entries fit S T₀, entryHas t e = true →
      lookupDup dupF t.uuid = some ((entryB d₀ e).erase (duplicateKey t)))
    (hTF : ∀ t ∈ T₀ ++ C, (lookupDup dupF t.uuid).isSome = true)
    (hL2 : ∀ e ∈ uniq_entries fit S T₀, ∀ m ∈ e.members,
      (lookupDup dupF m.uuid).getD ∅ ⊆ entryB d₀ e) :
    ∃ upds₂, run_uniq fit S ⟨T₀ ++ C, dupF⟩ =
      some ⟨⟨T₀ ++ C, dupF⟩, upds₂, []⟩ := by
  have hED : (uniq_entries fit S (T₀ ++ C)).map entryData =
      (uniq_entries fit S T₀).map entryData :=
    uniq_entries_append_dup fit S T₀ C (fun r _ => hrefl r) hu hCsrc hCnd
  have hF := map_entryData_forall₂ hED
  have hmatch : ∀ e₂ ∈ uniq_entries fit S (T₀ ++ C),
      ∃ e₁ ∈ uniq_entries fit S T₀, entryData e₂ = entryData e₁ :=
    forall₂_mem_left hF
  have hcanonm₁ := uniq_entries_canon_mem fit S T₀ hu
  have htpool : ∀ t ∈ T₀ ++ C, t ∈ S ++ T₀ := by
    intro t ht
    rcases List.mem_append.mp ht with h | h
    · exact List.mem_append.mpr (Or.inr h)
    · exact List.mem_append.mpr (Or.inl ((sourceEntries_sublist S).subset (hCsrc t h)))
  have hATU : allTargetUpdates ⟨T₀ ++ C, dupF⟩ (uniq_entries fit S (T₀ ++ C)) =
      some ((T₀ ++ C).flatMap (fun t =>
        ((uniq_entries fit S (T₀ ++ C)).filter (entryHas t)).map
          (fun e => (t, (lookupDup dupF t.uuid).getD ∅ ∪ entryB dupF e)))) :=
    allTargetUpdates_eq ⟨T₀ ++ C, dupF⟩ (uniq_entries fit S (T₀ ++ C)) hTF
  have hnoop : ∀ p ∈ (T₀ ++ C).flatMap (fun t =>
      ((uniq_entries fit S (T₀ ++ C)).filter (entryHas t)).map
        (fun e => (t, (lookupDup dupF t.uuid).getD ∅ ∪ entryB dupF e))),
      duplicateKey p.1 ∈ p.2 ∧
      lookupDup dupF p.1.uuid = some (p.2.erase (duplicateKey p.1)) := by
    intro p hp
    obtain ⟨t, ht, hpt⟩ := List.mem_flatMap.mp hp
    obtain ⟨e₂, he₂f, hpe⟩ := List.mem_map.mp hpt
    have he₂ : e₂ ∈ uniq_entries fit S (T₀ ++ C) := List.mem_of_mem_filter he₂f
    have hhas₂ : entryHas t e₂ = true := (List.mem_filter.mp he₂f).2
    obtain ⟨e₁, he₁, hR⟩ := hmatch e₂ he₂
    have hhas₁ : entryHas t e₁ = true := (entryHas_congr hR t).symm.trans hhas₂
    have hstored := hL1 t ht e₁ he₁ hhas₁
    have htm₁ : t ∈ e₁.members :=
      entryHas_mem_of_pool fit S T₀ hu (htpool t ht) he₁ hhas₁
    have hBeq : entryB dupF e₂ = entryB dupF e₁ := by
      unfold entryB
      rw [entryData_members hR]
    have hupper : entryB dupF e₁ ⊆ entryB d₀ e₁ := by
      unfold entryB
      refine Finset.biUnion_subset.mpr ?_
      intro m hm
      rw [List.mem_toFinset] at hm
      unfold get_duplicate_set
      refine Finset.insert_subset_iff.mpr ⟨?_, hL2 e₁ he₁ m hm⟩
      exact K_subset_entryB d₀ e₁ (List.mem_toFinset.mpr (List.mem_map_of_mem _ hm))
    have hlower : (e₁.members.map duplicateKey).toFinset ⊆ entryB dupF e₁ :=
      K_subset_entryB dupF e₁
    have hval : p = (t, (lookupDup dupF t.uuid).getD ∅ ∪ entryB dupF e₂) := hpe.symm
    rw [hval]
    refine ⟨?_, ?_⟩
    · show duplicateKey t ∈ (lookupDup dupF t.uuid).getD ∅ ∪ entryB dupF e₂
      rw [hBeq]
      exact Finset.mem_union_right _
        (hlower (List.mem_toFinset.mpr (List.mem_map_of_mem _ htm₁)))
    · show lookupDup dupF t.uuid =
        some ((((lookupDup dupF t.uuid).getD ∅) ∪ entryB dupF e₂).erase (duplicateKey t))
      rw [hstored]
      simp only [Option.getD_some]
      congr 1
      refine (erase_sandwich ?_ ?_).symm
      · exact Finset.subset_union_left
      · refine Finset.union_subset (Finset.erase_subset _ _) ?_
        rw [hBeq]
        exact hupper
  have happly : applyTargetUpdates ⟨T₀ ++ C, dupF⟩ ((T₀ ++ C).flatMap (fun t =>
      ((uniq_entries fit S (T₀ ++ C)).filter (entryHas t)).map
        (fun e => (t, (lookupDup dupF t.uuid).getD ∅ ∪ entryB dupF e)))) =
      some ⟨T₀ ++ C, dupF⟩ :=
    applyTargetUpdates_noop ⟨T₀ ++ C, dupF⟩ _ hnoop
  have hrem : remainingNew ⟨T₀ ++ C, dupF⟩ (uniq_entries fit S (T₀ ++ C)) = [] := by
    unfold remainingNew
    rw [List.filter_eq_nil_iff]
    intro e₂ he₂
    obtain ⟨e₁, he₁, hR⟩ := hmatch e₂ he₂
    have hany : ((T₀ ++ C).any (fun t => entryHas t e₂)) = true := by
      cases hmt : (T₀.any (fun t => entryHas t e₁)) with
      | true =>
        obtain ⟨t, ht, hhas⟩ := List.any_eq_true.mp hmt
        refine List.any_eq_true.mpr ⟨t, List.mem_append.mpr (Or.inl ht), ?_⟩
        exact (entryHas_congr hR t).trans hhas
      | false =>
        have hcC : e₁.canon ∈ C := hCc e₁ he₁ hmt
        refine List.any_eq_true.mpr ⟨e₁.canon, List.mem_append.mpr (Or.inr hcC), ?_⟩
        refine (entryHas_congr hR e₁.canon).trans ?_
        exact List.any_eq_true.mpr ⟨e₁.canon, hcanonm₁ e₁ he₁, by simp⟩
    show ¬(!((T₀ ++ C).any (fun t => entryHas t e₂))) = true
    rw [hany]
    simp
  have hremE :
      (remainingNew ⟨T₀ ++ C, dupF⟩ (uniq_entries fit S (T₀ ++ C))).isEmpty = true := by
    rw [hrem]
    rfl
  exact ⟨_, run_uniq_eq fit S ⟨T₀ ++ C, dupF⟩ _ ⟨T₀ ++ C, dupF⟩ hne hATU happly hremE⟩

/-- Claim C6 is false on the code: when a candidate that ends up as a
non-canonical member of a new class carries a pre-existing `duplicates`
extra, the second of two back-to-back `run uniq` invocations with the same
candidates changes stored state.  The first run records only the member
*keys* on the new canonical (line 260 ignores the members' own stored
duplicate sets), while the second run's target-update path (lines 233-235)
also unions in the members' stored sets, so the canonical's duplicate set
grows on the second run. -/
theorem c6_counterexample :
    ((run_uniq fitFormula [recA, recB]
        ⟨[], [("uuid-b", {"x|y|z"})]⟩).bind
      (fun r1 => (run_uniq fitFormula [recA, recB] r1.state).map
        (fun r2 => (decide (r2.state = r1.state), r2.added.length))))
      = some (false, 0) := by
  decide

/-- Claim C6 (amended): running `run uniq` twice in succession with no new
candidates in between yields a stored-state fixpoint provided the matcher is
reflexive, the source and target records have pairwise distinct uuids, the
source candidates carry no pre-existing `duplicates` extras, and every
existing target structure has a `duplicates` extra: the second run succeeds,
leaves the shared state (target-group membership and `duplicates` extras)
exactly as the first run left it, and adds no new reference structures.
Without the no-pre-existing-extras hypothesis the claim is false (see the
counterexample), and even here the second run's write-set is not empty —
it re-issues duplicate-set updates whose values merely coincide with what
is already stored. -/
theorem c6_theorem (fit : StructureRecord → StructureRecord → Bool)
    (S T₀ : List StructureRecord) (d₀ : List (String × Finset String))
    (hrefl : ∀ r : StructureRecord, fit r r = true)
    (hu : ((S ++ T₀).map (fun r => r.uuid)).Nodup)
    (hS : ∀ s ∈ S, lookupDup d₀ s.uuid = none)
    (hT : ∀ t ∈ T₀, (lookupDup d₀ t.uuid).isSome = true) :
    ∃ r1 r2, run_uniq fit S ⟨T₀, d₀⟩ = some r1 ∧
      run_uniq fit S r1.state = some r2 ∧ r2.state = r1.state ∧ r2.added = [] := by
  by_cases hne : (S.isEmpty || (S.filter queryFilter).isEmpty) = true
  · exact ⟨⟨⟨T₀, d₀⟩, [], []⟩, ⟨⟨T₀, d₀⟩, [], []⟩,
      run_uniq_eq_empty fit S ⟨T₀, d₀⟩ hne,
      run_uniq_eq_empty fit S ⟨T₀, d₀⟩ hne, rfl, rfl⟩
  · obtain ⟨r1, hrun1, hr1T, hr1A, hL1, hTFT, hL2⟩ :=
      run_uniq_first fit S T₀ d₀ hu hS hT hne
    have hCsrc : ∀ c ∈ r1.added, c ∈ sourceEntries S := by
      intro c hc
      rw [hr1A] at hc
      obtain ⟨e, he, hce⟩ := List.mem_map.mp hc
      have he' : e ∈ uniq_entries fit S T₀ := List.mem_of_mem_filter he
      exact hce ▸ remainingNew_members_src fit S T₀ d₀ hu e he e.canon
        (uniq_entries_canon_mem fit S T₀ hu e he')
    have hCnd : (r1.added.map (fun r => r.uuid)).Nodup := by
      rw [hr1A, List.map_map]
      exact ((List.filter_sublist _).map _).nodup
        (uniq_entries_canon_uuid_nodup fit S T₀ hu)
    have hCc : ∀ e ∈ uniq_entries fit S T₀,
        (T₀.any (fun t => entryHas t e)) = false → e.canon ∈ r1.added := by
      intro e he hnm
      rw [hr1A]
      exact List.mem_map_of_mem _ (mem_remainingNew.mpr ⟨he, hnm⟩)
    have hTF : ∀ t ∈ T₀ ++ r1.added, (lookupDup r1.state.dup t.uuid).isSome = true := by
      intro t ht
      rcases List.mem_append.mp ht with h | h
      · exact hTFT t h
      · rw [hr1A] at h
        obtain ⟨e, he, hce⟩ := List.mem_map.mp h
        have he' : e ∈ uniq_entries fit S T₀ := List.mem_of_mem_filter he
        have hhas : entryHas t e = true := by
          refine List.any_eq_true.mpr
            ⟨e.canon, uniq_entries_canon_mem fit S T₀ hu e he', ?_⟩
          simp [hce]
        rw [hL1 t ht e he' hhas]
        rfl
    obtain ⟨upds₂, hrun2⟩ := run_uniq_second fit S T₀ r1.added d₀ r1.state.dup hrefl hu
      hne hCsrc hCnd hCc hL1 hTF hL2
    have hstate : r1.state = ⟨T₀ ++ r1.added, r1.state.dup⟩ :=
      calc r1.state = ⟨r1.state.target, r1.state.dup⟩ := rfl
        _ = ⟨T₀ ++ r1.added, r1.state.dup⟩ := by rw [hr1T]
    refine ⟨r1, ⟨⟨T₀ ++ r1.added, r1.state.dup⟩, upds₂, []⟩, hrun1, ?_, ?_, rfl⟩
    · conv_lhs => rw [hstate]
      exact hrun2
    · exact hstate.symm

/-- Witness for the amended idempotence theorem on a concrete run: two
formula-equal COD candidates, an empty target group and an empty ledger. -/
theorem c6_witness :
    ∃ r1 r2, run_uniq fitFormula [recA, recB] ⟨[], []⟩ = some r1 ∧
      run_uniq fitFormula [recA, recB] r1.state = some r2 ∧
      r2.state = r1.state ∧ r2.added = [] :=
  c6_theorem fitFormula [recA, recB] [] []
    (fun r => by simp [fitFormula])
    (by decide) (by decide) (by decide)

end AiidaSdb
